import Mathlib

/-!
# Quantized 1x1 convolution with floating-point requantization

A shallow embedding of `convolve_1x1_s8_fpreq` (TinyEngine, lab 4) and of its
four build-time strategies:

* `reference` : the nested-loop branch (`LOOP_REORDERING` off),
* `reordered` : the pointer-walking branch (`LOOP_REORDERING` on, `LOOP_UNROLLING` off),
* `unrolled`  : the 2x2 unrolled scalar branch (`LOOP_UNROLLING` on, `SIMD` off),
* `packed`    : the packed branch (`SIMD` on).

Buffers are maps from element offsets to integer values, pointers are element
offsets into their buffer, and the four buffers of a call (activations, weights,
output, scratch) are distinct regions.  `int32_t` arithmetic on values (accumulators,
`num_elements`) wraps modulo `2^32`, narrowing casts wrap modulo `2^8` or `2^16`; offsets
into buffers are natural numbers.  The inner kernel of the packed branch,
`mat_mult_kernel_s8_s16_reordered_fpreq`, lives in another file: it is a parameter of
`packed`, and the definition of that name below is its model from the specification.
-/

namespace TinyEngine

/-! ## Machine integers -/

/-- Two's-complement narrowing to `int8_t` (`q7_t`). -/
def wrap8 (x : Int) : Int := (x + 128) % 256 - 128

/-- Two's-complement narrowing to `int16_t` (`q15_t`). -/
def wrap16 (x : Int) : Int := (x + 32768) % 65536 - 32768

/-- Two's-complement wrap of `int32_t` (`q31_t`) arithmetic. -/
def wrap32 (x : Int) : Int := (x + 2147483648) % 4294967296 - 2147483648

/-! ## Single-precision floats -/

/-- Finite binary32 value `m * 2^e` (significand `m`, exponent `e`). -/
structure F32 where
  m : Int
  e : Int
deriving DecidableEq

/-- Number of binary digits of `n`, by repeated halving (at most `fuel` digits). -/
def bitlenAux : Nat → Nat → Nat
  | 0, _ => 0
  | fuel + 1, n => if n = 0 then 0 else bitlenAux fuel (n / 2) + 1

/-- Number of binary digits of `n`. -/
def bitlen (n : Nat) : Nat := bitlenAux n n

/-- Quotient `n / 2^k` rounded to nearest, ties to even. -/
def roundNearestEven (n k : Nat) : Nat :=
  let q := n / 2 ^ k
  let r := n % 2 ^ k
  if 2 ^ k < 2 * r ∨ (2 * r = 2 ^ k ∧ q % 2 = 1) then q + 1 else q

/-- Rounding of the exact value `m * 2^e` to a 24-bit significand (round to nearest even). -/
def F32.round (m e : Int) : F32 :=
  let n := m.natAbs
  let k := bitlen n - 24
  ⟨m.sign * (roundNearestEven n k : Int), e + (k : Int)⟩

/-- Conversion `(float) sum` of an `int32_t`. -/
def F32.ofInt32 (sum : Int) : F32 := F32.round sum 0

/-- Single-precision product. -/
def F32.mul (x y : F32) : F32 := F32.round (x.m * y.m) (x.e + y.e)

/-- Conversion `(int32_t) x`: truncation toward zero; a value outside the `int32_t` range
(undefined in C) saturates, as the conversion instruction of the target does. -/
def F32.toInt32 (x : F32) : Int :=
  let t := if 0 ≤ x.e then x.m * 2 ^ x.e.toNat else Int.tdiv x.m (2 ^ (-x.e).toNat)
  if t < -2147483648 then -2147483648 else if 2147483647 < t then 2147483647 else t

/-- The scaling `(int32_t) ((float) sum * scale)`. -/
def fpreq (sum : Int) (scale : F32) : Int := F32.toInt32 (F32.mul (F32.ofInt32 sum) scale)

/-! ## Call arguments, helper macros -/

/-- Status codes of the engine. -/
inductive tinyengine_status where
  | STATE_SUCCESS
  | PARAM_NO_SUPPORT
deriving DecidableEq, Repr

open tinyengine_status

/-- A buffer: element offset to element value. -/
abbrev Buf := Nat → Int

/-- The read-only arguments of `convolve_1x1_s8_fpreq`; `bias = none` is the null pointer. -/
structure ConvArgs where
  input : Buf
  input_x : Nat
  input_y : Nat
  input_ch : Nat
  kernel : Buf
  bias : Option Buf
  scales : Nat → F32
  out_offset : Int
  input_offset : Int
  out_activation_min : Int
  out_activation_max : Int
  output_x : Nat
  output_y : Nat
  output_ch : Nat

/-- Kernel extent `DIM_KER_X`. -/
def DIM_KER_X : Nat := 1

/-- Kernel extent `DIM_KER_Y`. -/
def DIM_KER_Y : Nat := 1

/-- Modelled from the spec: the coordinate-to-offset mapping `OffsetC` of `macro.h` for a
row-major tensor with the channel varying fastest: `OffsetC(h, w, c, n, y, x, ch)`. -/
def OffsetC (h w c n y x ch : Nat) : Nat := ((n * h + y) * w + x) * c + ch

/-- Modelled from the spec: `MAX` of `macro.h`. -/
def MAX (a b : Int) : Int := if a > b then a else b

/-- Modelled from the spec: `MIN` of `macro.h`. -/
def MIN (a b : Int) : Int := if a < b then a else b

/-- A counted loop `for (i = 0; i < n; ++i) s = body i s`. -/
def forLoop {σ : Type} : Nat → (Nat → σ → σ) → σ → σ
  | 0, _, s => s
  | n + 1, body, s => body n (forLoop n body s)

/-- The store `buf[i] = v`. -/
def store (buf : Buf) (i : Nat) (v : Int) : Buf := fun j => if j = i then v else buf j

/-- The entry guard `input_ch % 4 != 0 || input_ch % 2 != 0`. -/
def guard_fails (input_ch : Nat) : Bool := input_ch % 4 != 0 || input_ch % 2 != 0

/-- One accumulation step `sum += filter_val * (input_val + input_offset)`. -/
def mac (sum filter_val input_val input_offset : Int) : Int :=
  wrap32 (sum + wrap32 (filter_val * wrap32 (input_val + input_offset)))

/-- The bias step `if (bias) sum += bias[ch]`. -/
def add_bias (bias : Option Buf) (sum : Int) (ch : Nat) : Int :=
  match bias with
  | some b => wrap32 (sum + b ch)
  | none => sum

/-- The requantization of an accumulator for output channel `ch`, up to the `int8_t` cast:
scale, add `out_offset`, clamp, narrow. -/
def requantize (a : ConvArgs) (sum : Int) (ch : Nat) : Int :=
  let sum := fpreq sum (a.scales ch)
  let sum := wrap32 (sum + a.out_offset)
  let sum := MAX sum a.out_activation_min
  let sum := MIN sum a.out_activation_max
  wrap8 sum

/-! ## Reference strategy -/

/-- The accumulation of the reference branch for output pixel `(out_y, out_x)` and channel
`out_channel`: the three innermost loops. -/
def reference_sum (a : ConvArgs) (out_y out_x out_channel : Nat) : Int :=
  forLoop DIM_KER_Y (fun filter_y sum =>
    forLoop DIM_KER_X (fun filter_x sum =>
      forLoop a.input_ch (fun in_channel sum =>
        let input_val := a.input (OffsetC a.input_y a.input_x a.input_ch 0 out_y out_x in_channel)
        let filter_val :=
          a.kernel (OffsetC DIM_KER_Y DIM_KER_X a.input_ch out_channel filter_y filter_x in_channel)
        mac sum filter_val input_val a.input_offset) sum) sum) 0

/-- The reference branch: status and output buffer after the call. -/
def reference (a : ConvArgs) (output : Buf) : tinyengine_status × Buf :=
  if guard_fails a.input_ch then (PARAM_NO_SUPPORT, output)
  else
    (STATE_SUCCESS,
      forLoop a.output_y (fun out_y output =>
        forLoop a.output_x (fun out_x output =>
          forLoop a.output_ch (fun out_channel output =>
            let sum := reference_sum a out_y out_x out_channel
            let sum := add_bias a.bias sum out_channel
            store output (OffsetC a.output_y a.output_x a.output_ch 0 out_y out_x out_channel)
              (requantize a sum out_channel)) output) output) output)

/-! ## Reordered strategy -/

/-- The element count `const int32_t num_elements = output_x * output_y`. -/
def num_elements (a : ConvArgs) : Int := wrap32 ((a.output_x : Int) * (a.output_y : Int))

/-- Inner state of the reordered branch: the accumulator and the walking pointers
`input`, `kernel`. -/
structure DotState where
  sum : Int
  input : Nat
  kernel : Nat

/-- Outer state of the reordered branch: the pointers `input_start`, `kernel`, `out` and
the contents of the output buffer. -/
structure ReorderedState where
  input_start : Nat
  kernel : Nat
  out : Nat
  output : Buf

/-- The input-channel loop of the reordered branch, from `sum = 0; input = input_start`. -/
def reordered_dot (a : ConvArgs) (input_start kernel : Nat) : DotState :=
  forLoop a.input_ch (fun _ d =>
    let input_val := a.input d.input
    let filter_val := a.kernel d.kernel
    { sum := mac d.sum filter_val input_val a.input_offset,
      input := d.input + 1, kernel := d.kernel + 1 }) ⟨0, input_start, kernel⟩

/-- The output-channel loop of the reordered branch for one output element. -/
def reordered_channels (a : ConvArgs) (s : ReorderedState) : ReorderedState :=
  forLoop a.output_ch (fun out_channel s =>
    let d := reordered_dot a s.input_start s.kernel
    let sum := add_bias a.bias d.sum out_channel
    { s with kernel := d.kernel, out := s.out + 1,
             output := store s.output s.out (requantize a sum out_channel) }) s

/-- The element loop of the reordered branch. -/
def reordered_elements (a : ConvArgs) (n : Nat) (output : Buf) : ReorderedState :=
  forLoop n (fun _ s =>
    let s := reordered_channels a { s with kernel := 0 }
    { s with input_start := s.input_start + a.input_ch }) ⟨0, 0, 0, output⟩

/-- The reordered branch: status and output buffer after the call. -/
def reordered (a : ConvArgs) (output : Buf) : tinyengine_status × Buf :=
  if guard_fails a.input_ch then (PARAM_NO_SUPPORT, output)
  else (STATE_SUCCESS, (reordered_elements a (num_elements a).toNat output).output)

/-! ## Unrolled scalar strategy -/

/-- Inner state of the paired loop: four accumulators and the pointers `input_0`,
`input_1`, `kernel_0`, `kernel_1`. -/
structure QuadState where
  sum_0 : Int
  sum_1 : Int
  sum_2 : Int
  sum_3 : Int
  input_0 : Nat
  input_1 : Nat
  kernel_0 : Nat
  kernel_1 : Nat

/-- One of the four textual copies inside the 4x unrolled input-channel loop of the paired
loop: four accumulations, every pointer advanced by one. -/
def quad_step (a : ConvArgs) (q : QuadState) : QuadState :=
  let sum_0 := mac q.sum_0 (a.kernel q.kernel_0) (a.input q.input_0) a.input_offset
  let sum_1 := mac q.sum_1 (a.kernel q.kernel_0) (a.input q.input_1) a.input_offset
  let kernel_0 := q.kernel_0 + 1
  let sum_2 := mac q.sum_2 (a.kernel q.kernel_1) (a.input q.input_0) a.input_offset
  let input_0 := q.input_0 + 1
  let sum_3 := mac q.sum_3 (a.kernel q.kernel_1) (a.input q.input_1) a.input_offset
  { sum_0 := sum_0, sum_1 := sum_1, sum_2 := sum_2, sum_3 := sum_3,
    input_0 := input_0, input_1 := q.input_1 + 1, kernel_0 := kernel_0,
    kernel_1 := q.kernel_1 + 1 }

/-- The input-channel loop of the paired loop: `input_ch / 4` rounds of four copies. -/
def quad_dot (a : ConvArgs) (input_start kernel_0 kernel_1 : Nat) : QuadState :=
  forLoop (a.input_ch / 4) (fun _ q => quad_step a (quad_step a (quad_step a (quad_step a q))))
    ⟨0, 0, 0, 0, input_start, input_start + a.input_ch, kernel_0, kernel_1⟩

/-- State of the output-channel loops of the unrolled branch: `kernel_0`, `kernel_1`,
`out_0`, `out_1` and the contents of the output buffer. -/
structure PairState where
  kernel_0 : Nat
  kernel_1 : Nat
  out_0 : Nat
  out_1 : Nat
  mem : Buf

/-- The output-channel loop of the paired loop: `output_ch / 2` rounds, each writing two
channels of two output elements. -/
def paired_channels (a : ConvArgs) (input_start : Nat) (s : PairState) : PairState :=
  forLoop (a.output_ch / 2) (fun out_channel s =>
    let q := quad_dot a input_start s.kernel_0 s.kernel_1
    let sum_0 := add_bias a.bias q.sum_0 (out_channel * 2)
    let sum_1 := add_bias a.bias q.sum_1 (out_channel * 2)
    let sum_2 := add_bias a.bias q.sum_2 (out_channel * 2 + 1)
    let sum_3 := add_bias a.bias q.sum_3 (out_channel * 2 + 1)
    let mem := store s.mem s.out_0 (requantize a sum_0 (out_channel * 2))
    let out_0 := s.out_0 + 1
    let mem := store mem s.out_1 (requantize a sum_1 (out_channel * 2))
    let out_1 := s.out_1 + 1
    let mem := store mem out_0 (requantize a sum_2 (out_channel * 2 + 1))
    let out_0 := out_0 + 1
    let mem := store mem out_1 (requantize a sum_3 (out_channel * 2 + 1))
    let out_1 := out_1 + 1
    { kernel_0 := q.kernel_0 + a.input_ch, kernel_1 := q.kernel_1 + a.input_ch,
      out_0 := out_0, out_1 := out_1, mem := mem }) s

/-- Outer state of the unrolled branch: the pointers `input_start`, `output` and the
contents of the output buffer. -/
structure UnrolledState where
  input_start : Nat
  output : Nat
  mem : Buf

/-- The paired loop of the unrolled branch, `n` rounds (`n = num_elements / 2`). -/
def unrolled_pairs (a : ConvArgs) (n : Nat) (output : Buf) : UnrolledState :=
  forLoop n (fun _ s =>
    let p := paired_channels a s.input_start
      ⟨0, a.input_ch, s.output, s.output + a.output_ch, s.mem⟩
    { input_start := s.input_start + a.input_ch * 2,
      output := s.output + a.output_ch * 2, mem := p.mem }) ⟨0, 0, output⟩

/-- Inner state of the leftover pass: two accumulators and the pointers `input_0`,
`kernel_0`, `kernel_1`. -/
structure DuoState where
  sum_0 : Int
  sum_1 : Int
  input_0 : Nat
  kernel_0 : Nat
  kernel_1 : Nat

/-- One of the four textual copies inside the input-channel loop of the leftover pass. -/
def duo_step (a : ConvArgs) (d : DuoState) : DuoState :=
  let sum_0 := mac d.sum_0 (a.kernel d.kernel_0) (a.input d.input_0) a.input_offset
  let sum_1 := mac d.sum_1 (a.kernel d.kernel_1) (a.input d.input_0) a.input_offset
  { sum_0 := sum_0, sum_1 := sum_1, input_0 := d.input_0 + 1,
    kernel_0 := d.kernel_0 + 1, kernel_1 := d.kernel_1 + 1 }

/-- The input-channel loop of the leftover pass. -/
def duo_dot (a : ConvArgs) (input_start kernel_0 kernel_1 : Nat) : DuoState :=
  forLoop (a.input_ch / 4) (fun _ d => duo_step a (duo_step a (duo_step a (duo_step a d))))
    ⟨0, 0, input_start, kernel_0, kernel_1⟩

/-- The leftover pass of the unrolled branch (taken when `num_elements & 0x1`); it has no
`out_1`, the field keeps the value of `output`. -/
def unrolled_leftover (a : ConvArgs) (s : UnrolledState) : PairState :=
  forLoop (a.output_ch / 2) (fun out_channel p =>
    let d := duo_dot a s.input_start p.kernel_0 p.kernel_1
    let sum_0 := add_bias a.bias d.sum_0 (out_channel * 2)
    let sum_1 := add_bias a.bias d.sum_1 (out_channel * 2 + 1)
    let mem := store p.mem p.out_0 (requantize a sum_0 (out_channel * 2))
    let out_0 := p.out_0 + 1
    let mem := store mem out_0 (requantize a sum_1 (out_channel * 2 + 1))
    let out_0 := out_0 + 1
    { p with kernel_0 := d.kernel_0 + a.input_ch, kernel_1 := d.kernel_1 + a.input_ch,
             out_0 := out_0, mem := mem })
    ⟨0, a.input_ch, s.output, s.output, s.mem⟩

/-- The unrolled scalar branch: status and output buffer after the call. -/
def unrolled (a : ConvArgs) (output : Buf) : tinyengine_status × Buf :=
  if guard_fails a.input_ch then (PARAM_NO_SUPPORT, output)
  else
    let s := unrolled_pairs a (Int.tdiv (num_elements a) 2).toNat output
    if num_elements a % 2 ≠ 0 then (STATE_SUCCESS, (unrolled_leftover a s).mem)
    else (STATE_SUCCESS, s.mem)

/-! ## Packed strategy -/

/-- Modelled from the spec: the paired multiply-accumulate `__SMLAD` on two packed pairs of
16-bit lanes: `acc + x.lo * y.lo + x.hi * y.hi` in 32-bit arithmetic. -/
def SMLAD (x y : Int × Int) (acc : Int) : Int := wrap32 (acc + x.1 * y.1 + x.2 * y.2)

/-- Modelled from the spec: `read_and_pad_reordered`, which reads four weights at `ker_a` and
sign-extends them to two packed pairs in the reordered order (elements 0, 2 and 1, 3). -/
def read_and_pad_reordered (kernel : Buf) (ker_a : Nat) : (Int × Int) × (Int × Int) :=
  ((kernel ker_a, kernel (ker_a + 2)), (kernel (ker_a + 1), kernel (ker_a + 3)))

/-- Modelled from the spec: `arm_nn_read_q15x2_ia`, which reads one packed pair of 16-bit
values at `ip`. -/
def arm_nn_read_q15x2 (buf : Buf) (ip : Nat) : Int × Int := (buf ip, buf (ip + 1))

/-- State of a packing loop: the pointers `src`, `dst` and the contents of the scratch
buffer. -/
structure PackState where
  src : Nat
  dst : Nat
  buf : Buf

/-- Modelled from the spec: the packing step `q7_q15_offset_reordered_ele` of
`img2col_element.h`: four activations are sign-extended to 16 bits, the 16-bit offset
`inoff16` is added lane-wise in 16-bit arithmetic, and the four results are stored in the
reordered order (elements 0, 2, 1, 3); both pointers advance by four. -/
def q7_q15_offset_reordered_ele (input : Buf) (inoff16 : Int) (p : PackState) : PackState :=
  let buf := store p.buf p.dst (wrap16 (input p.src + inoff16))
  let buf := store buf (p.dst + 1) (wrap16 (input (p.src + 2) + inoff16))
  let buf := store buf (p.dst + 2) (wrap16 (input (p.src + 1) + inoff16))
  let buf := store buf (p.dst + 3) (wrap16 (input (p.src + 3) + inoff16))
  { src := p.src + 4, dst := p.dst + 4, buf := buf }

/-- The narrowing `const int16_t inoff16 = input_offset`. -/
def inoff16 (a : ConvArgs) : Int := wrap16 a.input_offset

/-- The type of the inner kernel `mat_mult_kernel_s8_s16_reordered_fpreq`, which is not part
of this file: from the weights, the packed two-column buffer, `output_ch`, the scales, the
narrowed output offset, the clamp bounds, the column length, the bias pointer, the contents
of the output buffer and the pointer `out`, it gives the new contents and the returned
pointer, or `none` when its behaviour is undefined. -/
abbrev MatMultKernel :=
  Buf → Buf → Nat → (Nat → F32) → Int → Int → Int → Nat → Option Buf → Buf → Nat →
    Option (Buf × Nat)

/-- Outer state of the packed branch: the pointer `out` and the contents of the output and
scratch buffers. -/
structure PackedState where
  out : Nat
  output : Buf
  runtime_buf : Buf

/-- The paired loop of the packed branch, `n` rounds: two columns are packed, then the inner
kernel is called. -/
def packed_pairs (mm : MatMultKernel) (a : ConvArgs) (n : Nat) (s : PackedState) :
    Option PackedState :=
  forLoop n (fun i_element r =>
    match r with
    | none => none
    | some s =>
      let p := forLoop (a.input_ch >>> 2) (fun _ p =>
        q7_q15_offset_reordered_ele a.input (inoff16 a)
          (q7_q15_offset_reordered_ele a.input (inoff16 a) p))
        ⟨i_element * a.input_ch * 2, 0, s.runtime_buf⟩
      match mm a.kernel p.buf a.output_ch a.scales (wrap8 a.out_offset) a.out_activation_min
          a.out_activation_max (a.input_ch * DIM_KER_Y * DIM_KER_X) a.bias s.output s.out with
      | none => none
      | some (output, out) => some { out := out, output := output, runtime_buf := p.buf })
    (some s)

/-- Inner state of the leftover path: the accumulator and the pointers `ker_a`,
`ip_as_col`. -/
structure ColState where
  sum : Int
  ker_a : Nat
  ip_as_col : Nat

/-- The `while (col_count)` loop of the leftover path: two paired multiply-accumulates per
round. -/
def leftover_dot (a : ConvArgs) (buf : Buf) (sum : Int) (ker_a : Nat) : ColState :=
  forLoop ((a.input_ch * DIM_KER_X * DIM_KER_Y) >>> 2) (fun _ c =>
    let ker := read_and_pad_reordered a.kernel c.ker_a
    let in_b1 := arm_nn_read_q15x2 buf c.ip_as_col
    let sum := SMLAD ker.1 in_b1 c.sum
    let in_b2 := arm_nn_read_q15x2 buf (c.ip_as_col + 2)
    let sum := SMLAD ker.2 in_b2 sum
    { sum := sum, ker_a := c.ker_a + 4, ip_as_col := c.ip_as_col + 4 }) ⟨sum, ker_a, 0⟩

/-- State of the output-channel loop of the leftover path: `ker_a`, `out` and the contents
of the output buffer. -/
structure LeftoverState where
  ker_a : Nat
  out : Nat
  output : Buf

/-- The packing loop of the leftover path: the last column, `input_ch >> 2` rounds of one
packing step from `src = &input[(num_elements - 1) * input_ch]`. -/
def pack_last_column (a : ConvArgs) (runtime_buf : Buf) : PackState :=
  forLoop (a.input_ch >>> 2) (fun _ p =>
    q7_q15_offset_reordered_ele a.input (inoff16 a) p)
    ⟨((num_elements a - 1) * (a.input_ch : Int)).toNat, 0, runtime_buf⟩

/-- The output-channel loop of the leftover path over the packed column `buf`: every output
channel starts from `bias[i_ch_out]`, read without a null check; `none` is the read through
a null `bias`. -/
def leftover_channels (a : ConvArgs) (buf : Buf) (l : LeftoverState) : Option LeftoverState :=
  forLoop a.output_ch (fun i_ch_out r =>
    match r with
    | none => none
    | some l =>
      match a.bias with
      | none => none
      | some bias =>
        let c := leftover_dot a buf (bias i_ch_out) l.ker_a
        some { ker_a := c.ker_a, out := l.out + 1,
               output := store l.output l.out (requantize a c.sum i_ch_out) })
    (some l)

/-- The leftover path of the packed branch (taken when `num_elements & 0x1`): the last
column is packed, then the output-channel loop runs from `ker_a = kernel`. -/
def packed_leftover (a : ConvArgs) (s : PackedState) : Option PackedState :=
  let p := pack_last_column a s.runtime_buf
  match leftover_channels a p.buf ⟨0, s.out, s.output⟩ with
  | none => none
  | some l => some { out := l.out, output := l.output, runtime_buf := p.buf }

/-- The packed branch: status and contents of the output and scratch buffers after the
call, or `none` when the call reads through a null pointer. -/
def packed (mm : MatMultKernel) (a : ConvArgs) (output runtime_buf : Buf) :
    Option (tinyengine_status × Buf × Buf) :=
  if guard_fails a.input_ch then some (PARAM_NO_SUPPORT, output, runtime_buf)
  else
    match packed_pairs mm a (Int.tdiv (num_elements a) 2).toNat ⟨0, output, runtime_buf⟩ with
    | none => none
    | some s =>
      if num_elements a % 2 ≠ 0 then
        match packed_leftover a s with
        | none => none
        | some s => some (STATE_SUCCESS, s.output, s.runtime_buf)
      else some (STATE_SUCCESS, s.output, s.runtime_buf)

/-! ## Specification-side definitions -/

/-- The sum `f 0 + ... + f (n - 1)` over the integers. -/
def sum_upto (n : Nat) (f : Nat → Int) : Int := forLoop n (fun i s => s + f i) 0

/-- The accumulation over `n` consecutive activations from offset `src` and `n` consecutive
weights from offset `ker`, in 32-bit arithmetic. -/
def dotN (a : ConvArgs) (src ker n : Nat) : Int :=
  forLoop n (fun i sum => mac sum (a.kernel (ker + i)) (a.input (src + i)) a.input_offset) 0

/-- The quantized convolution result for the activations of pixel index `pix` and output
channel `c`: accumulate over the input channels, add the bias, requantize. -/
def conv_value (a : ConvArgs) (pix c : Nat) : Int :=
  requantize a (add_bias a.bias (dotN a (pix * a.input_ch) (c * a.input_ch) a.input_ch) c) c

/-- The exact integer accumulator of the specification:
`sum over i < input_ch of (input[pix * input_ch + i] + input_offset) * kernel[c * input_ch + i]`,
plus `bias[c]` when a bias vector is supplied and plus `0` when it is not. -/
def acc_spec (a : ConvArgs) (pix c : Nat) : Int :=
  sum_upto a.input_ch (fun i =>
    (a.input (pix * a.input_ch + i) + a.input_offset) * a.kernel (c * a.input_ch + i))
  + (match a.bias with
     | some b => b c
     | none => 0)

/-- The buffer `buf` arises from `base` by storing `v p c` at offset `p * och + c` for every
pixel `p` and channel `c < och` selected by `W`, every other offset keeping its contents. -/
def Fills (och : Nat) (v : Nat → Nat → Int) (W : Nat → Nat → Prop) (base buf : Buf) : Prop :=
  (∀ p c, c < och → W p c → buf (p * och + c) = v p c) ∧
  (∀ i, (∀ p c, c < och → W p c → i ≠ p * och + c) → buf i = base i)

/-- The value the reference branch stores for output pixel index `p = out_y * output_x + out_x`
and channel `c`: it reads the activations of pixel index `out_y * input_x + out_x`. -/
def reference_value (a : ConvArgs) (p c : Nat) : Int :=
  conv_value a ((p / a.output_x) * a.input_x + p % a.output_x) c

/-! ## Concrete calls -/

/-- The scale `0.5`. -/
def half : F32 := ⟨1, -1⟩

/-- The scale `1.0`. -/
def one : F32 := ⟨1, 0⟩

/-- A call on a 3x1 image with four input and four output channels, a bias vector, scale
`0.5`, `input_offset = 3`, `out_offset = 5` and the full `int8_t` clamp range. -/
def sampleArgs : ConvArgs where
  input := fun i => ((i % 11 : Nat) : Int) - 5
  input_x := 3
  input_y := 1
  input_ch := 4
  kernel := fun i => ((i % 7 : Nat) : Int) - 3
  bias := some (fun c => ((c % 4 : Nat) : Int))
  scales := fun _ => half
  out_offset := 5
  input_offset := 3
  out_activation_min := -128
  out_activation_max := 127
  output_x := 3
  output_y := 1
  output_ch := 4

/-- The call `sampleArgs` with an odd number of output channels. -/
def oddChannelArgs : ConvArgs := { sampleArgs with output_ch := 3 }

/-- The call `sampleArgs` with three input channels, which the entry guard rejects. -/
def threeChannelArgs : ConvArgs := { sampleArgs with input_ch := 3 }

/-- An output buffer holding `77` everywhere before the call. -/
def filled77 : Buf := fun _ => 77

/-- An output buffer holding `55` everywhere before the call. -/
def filled55 : Buf := fun _ => 55

/-- A buffer holding `0` everywhere. -/
def zeroBuf : Buf := fun _ => 0

/-- The call `sampleArgs` with the clamp bounds in the wrong order (`min = 10 > max = 5`). -/
def invertedClampArgs : ConvArgs :=
  { sampleArgs with out_activation_min := 10, out_activation_max := 5 }

/-- The call `sampleArgs` with `out_offset = 150` and the clamp range `[0, 200]`, whose upper
bound is not an `int8_t` value. -/
def wideClampArgs : ConvArgs :=
  { sampleArgs with out_offset := 150, out_activation_min := 0, out_activation_max := 200 }

/-- The call `sampleArgs` on a 1x1 image without a bias vector (`bias = NULL`). -/
def nullBiasArgs : ConvArgs :=
  { sampleArgs with input_x := 1, output_x := 1, bias := none }

/-- The call `nullBiasArgs` with a bias vector of zeros. -/
def zeroBiasArgs : ConvArgs := { nullBiasArgs with bias := some (fun _ => 0) }

/-- The call `sampleArgs` on a 1x1 image with `input_offset = 65536 + 3`, which does not fit
16 bits. -/
def wideOffsetArgs : ConvArgs :=
  { sampleArgs with input_x := 1, output_x := 1, input_offset := 65539 }

/-- The quantized convolution result of the specification for the activations of pixel index
`pix` and output channel `c`: the exact accumulator reduced to 32 bits, scaled, offset,
clamped and narrowed to `int8_t`. -/
def quantized_result (a : ConvArgs) (pix c : Nat) : Int :=
  wrap8 (MIN (MAX (wrap32 (fpreq (wrap32 (acc_spec a pix c)) (a.scales c) + a.out_offset))
    a.out_activation_min) a.out_activation_max)

/-- The scenario of the specification: a 2x2x4 activation tensor of constant value 10,
identity-like 4x4 weights (`weight[i][i] = 1`, all others 0), `input_offset = 0`,
`out_offset = 0`, scales `1.0`, no bias, clamp `[-128, 127]`, output 2x2x4. -/
def identityArgs : ConvArgs where
  input := fun _ => 10
  input_x := 2
  input_y := 2
  input_ch := 4
  kernel := fun j => if j / 4 = j % 4 then 1 else 0
  bias := none
  scales := fun _ => one
  out_offset := 0
  input_offset := 0
  out_activation_min := -128
  out_activation_max := 127
  output_x := 2
  output_y := 2
  output_ch := 4

/-- The scenario `identityArgs` with scales `0.5` and `out_offset = 5`. -/
def halfScaleArgs : ConvArgs := { identityArgs with scales := fun _ => half, out_offset := 5 }

/-- A call on a 1x1 image whose accumulator is the bias `33554435 = 2^25 + 3`, which single
precision cannot represent: zero weights, scale `0.5`, `out_offset = -16777217`. -/
def bigBiasArgs : ConvArgs where
  input := fun _ => 0
  input_x := 1
  input_y := 1
  input_ch := 4
  kernel := fun _ => 0
  bias := some (fun _ => 33554435)
  scales := fun _ => half
  out_offset := -16777217
  input_offset := 0
  out_activation_min := -128
  out_activation_max := 127
  output_x := 1
  output_y := 1
  output_ch := 1

/-- The requantization with the scaled value taken as the integer quotient of the 32-bit
accumulator by 2, rounded toward zero, and `out_offset` added after this truncation. -/
def truncated_result (a : ConvArgs) (pix c : Nat) : Int :=
  wrap8 (MIN (MAX (wrap32 (Int.tdiv (wrap32 (acc_spec a pix c)) 2 + a.out_offset))
    a.out_activation_min) a.out_activation_max)

/-- The clamped 32-bit value of the specification for the activations of pixel index `pix`
and output channel `c`, before the narrowing to `int8_t`. -/
def clamped_result (a : ConvArgs) (pix c : Nat) : Int :=
  MIN (MAX (wrap32 (fpreq (wrap32 (acc_spec a pix c)) (a.scales c) + a.out_offset))
    a.out_activation_min) a.out_activation_max

/-- The call `sampleArgs` with a 3x2 input image and a 2x2 output image: the input is wider
than the output. -/
def widerInputArgs : ConvArgs :=
  { sampleArgs with input_x := 3, input_y := 2, output_x := 2, output_y := 2 }

/-! ## The inner kernel of the packed strategy, from the specification -/

/-- The requantization stage with its parameters passed one by one, as the inner kernel
receives them: scale, add the output offset, clamp, narrow to `int8_t`. -/
def requantize_with (scales : Nat → F32) (out_offset activation_min activation_max : Int)
    (sum : Int) (ch : Nat) : Int :=
  let sum := fpreq sum (scales ch)
  let sum := wrap32 (sum + out_offset)
  let sum := MAX sum activation_min
  let sum := MIN sum activation_max
  wrap8 sum

/-- Modelled from the spec: the dot product of one lane of the inner kernel, which walks
the weights from `ker_a` and one packed column from `ip` together, four values per round,
with two paired multiply-accumulates in the reordered order of the packing step. -/
def paired_dot (kernel buf : Buf) (rounds : Nat) (sum : Int) (ker_a ip : Nat) : ColState :=
  forLoop rounds (fun _ c =>
    let ker := read_and_pad_reordered kernel c.ker_a
    let in_b1 := arm_nn_read_q15x2 buf c.ip_as_col
    let sum := SMLAD ker.1 in_b1 c.sum
    let in_b2 := arm_nn_read_q15x2 buf (c.ip_as_col + 2)
    let sum := SMLAD ker.2 in_b2 sum
    { sum := sum, ker_a := c.ker_a + 4, ip_as_col := c.ip_as_col + 4 }) ⟨sum, ker_a, ip⟩

/-- Modelled from the spec: the inner kernel `mat_mult_kernel_s8_s16_reordered_fpreq`, whose
source file is missing.  For every output channel it accumulates the two lanes of the packed
buffer (the column of the first position at offset 0, the column of the second position at
offset `num_col_a`) against the weight row of the channel, adds the bias when a bias vector
is supplied, requantizes each lane on its own with the offset and clamp bounds it was
passed, and stores the first lane at `out_0[ch]` and the second at `out_0[output_ch + ch]`;
it returns `out_0 + 2 * output_ch`. -/
def mat_mult_kernel_s8_s16_reordered_fpreq : MatMultKernel :=
  fun input_a input_b output_ch scales out_offset activation_min activation_max num_col_a
      output_bias output out_0 =>
    some
      (forLoop output_ch (fun ch mem =>
        let sum_0 := (paired_dot input_a input_b (num_col_a >>> 2) 0 (ch * num_col_a) 0).sum
        let sum_1 :=
          (paired_dot input_a input_b (num_col_a >>> 2) 0 (ch * num_col_a) num_col_a).sum
        let sum_0 := add_bias output_bias sum_0 ch
        let sum_1 := add_bias output_bias sum_1 ch
        let mem := store mem (out_0 + ch)
          (requantize_with scales out_offset activation_min activation_max sum_0 ch)
        store mem (out_0 + output_ch + ch)
          (requantize_with scales out_offset activation_min activation_max sum_1 ch)) output,
       out_0 + 2 * output_ch)

/-- The packing loops have filled the first `m` groups of four of the scratch buffer `p.buf`
from the activations at `src`: each group holds the activations plus `off16`, in 16-bit
arithmetic, in the order 0, 2, 1, 3, and both pointers have advanced by `4 * m`. -/
def PackedGroups (input : Buf) (off16 : Int) (src m : Nat) (p : PackState) : Prop :=
  p.src = src + 4 * m ∧ p.dst = 4 * m ∧
  ∀ g, g < m →
    p.buf (4 * g) = wrap16 (input (src + 4 * g) + off16) ∧
    p.buf (4 * g + 1) = wrap16 (input (src + (4 * g + 2)) + off16) ∧
    p.buf (4 * g + 2) = wrap16 (input (src + (4 * g + 1)) + off16) ∧
    p.buf (4 * g + 3) = wrap16 (input (src + (4 * g + 3)) + off16)

/-- The call `sampleArgs` on a 2x1 image (one pair of positions) with `out_offset = 300`,
which is not an `int8_t` value. -/
def wideOutOffsetArgs : ConvArgs :=
  { sampleArgs with input_x := 2, output_x := 2, out_offset := 300 }

/-! ## Arithmetic lemmas -/

theorem wrap32_idem (x : Int) : wrap32 (wrap32 x) = wrap32 x := by
  unfold wrap32; omega

theorem wrap32_of_range (x : Int) (h1 : -2147483648 ≤ x) (h2 : x ≤ 2147483647) :
    wrap32 x = x := by
  unfold wrap32; omega

theorem wrap32_range (x : Int) : -2147483648 ≤ wrap32 x ∧ wrap32 x ≤ 2147483647 := by
  unfold wrap32; omega

theorem wrap32_modEq (x : Int) : wrap32 x ≡ x [ZMOD 4294967296] := by
  unfold Int.ModEq wrap32; omega

theorem wrap32_congr {x y : Int} (h : x ≡ y [ZMOD 4294967296]) : wrap32 x = wrap32 y := by
  unfold Int.ModEq at h; unfold wrap32; omega

theorem wrap16_of_range (x : Int) (h1 : -32768 ≤ x) (h2 : x ≤ 32767) : wrap16 x = x := by
  unfold wrap16; omega

theorem wrap8_range (x : Int) : -128 ≤ wrap8 x ∧ wrap8 x ≤ 127 := by
  unfold wrap8; omega

theorem wrap8_of_range (x : Int) (h1 : -128 ≤ x) (h2 : x ≤ 127) : wrap8 x = x := by
  unfold wrap8; omega

theorem mac_modEq (sum k x off : Int) :
    mac sum k x off ≡ sum + (x + off) * k [ZMOD 4294967296] := by
  unfold mac
  have h1 : wrap32 (x + off) ≡ x + off [ZMOD 4294967296] := wrap32_modEq _
  have h2 : wrap32 (k * wrap32 (x + off)) ≡ (x + off) * k [ZMOD 4294967296] := by
    refine (wrap32_modEq _).trans ?_
    rw [mul_comm]
    exact h1.mul_right k
  exact (wrap32_modEq _).trans (Int.ModEq.add_left sum h2)

theorem mac_range (sum k x off : Int) :
    -2147483648 ≤ mac sum k x off ∧ mac sum k x off ≤ 2147483647 := wrap32_range _

theorem forLoop_succ {σ : Type} (n : Nat) (body : Nat → σ → σ) (s : σ) :
    forLoop (n + 1) body s = body n (forLoop n body s) := rfl

theorem forLoop_zero {σ : Type} (body : Nat → σ → σ) (s : σ) : forLoop 0 body s = s := rfl

theorem dotN_succ (a : ConvArgs) (src ker n : Nat) :
    dotN a src ker (n + 1) =
      mac (dotN a src ker n) (a.kernel (ker + n)) (a.input (src + n)) a.input_offset := rfl

theorem dotN_range (a : ConvArgs) (src ker n : Nat) :
    -2147483648 ≤ dotN a src ker n ∧ dotN a src ker n ≤ 2147483647 := by
  cases n with
  | zero => simp [dotN, forLoop]
  | succ n => rw [dotN_succ]; exact mac_range _ _ _ _

theorem dotN_modEq (a : ConvArgs) (src ker n : Nat) :
    dotN a src ker n ≡
      sum_upto n (fun i => (a.input (src + i) + a.input_offset) * a.kernel (ker + i))
      [ZMOD 4294967296] := by
  induction n with
  | zero => simp [dotN, sum_upto, forLoop]
  | succ n ih =>
    rw [dotN_succ]
    refine (mac_modEq _ _ _ _).trans ?_
    show _ ≡ sum_upto n _ + _ [ZMOD 4294967296]
    exact Int.ModEq.add_right _ ih

/-- The code accumulator, bias included, is the exact accumulator of the specification
reduced to 32 bits. -/
theorem add_bias_dotN_eq (a : ConvArgs) (pix c : Nat) :
    add_bias a.bias (dotN a (pix * a.input_ch) (c * a.input_ch) a.input_ch) c
      = wrap32 (acc_spec a pix c) := by
  have h := dotN_modEq a (pix * a.input_ch) (c * a.input_ch) a.input_ch
  unfold add_bias acc_spec
  cases hb : a.bias with
  | none =>
    simp only [add_zero]
    rw [← wrap32_congr h]
    exact (wrap32_of_range _ (dotN_range _ _ _ _).1 (dotN_range _ _ _ _).2).symm
  | some b =>
    simp only
    exact wrap32_congr (Int.ModEq.add_right _ h)

/-! ## Loop invariants and buffer fills -/

theorem forLoop_inv {σ : Type} (P : Nat → σ → Prop) (n : Nat) (body : Nat → σ → σ) (s : σ)
    (h0 : P 0 s) (hstep : ∀ i t, i < n → P i t → P (i + 1) (body i t)) :
    P n (forLoop n body s) := by
  induction n with
  | zero => exact h0
  | succ n ih =>
    rw [forLoop_succ]
    exact hstep n _ (Nat.lt_succ_self n)
      (ih (fun i t hi hP => hstep i t (Nat.lt_succ_of_lt hi) hP))

theorem pixel_index_inj {och p c p' c' : Nat} (hc : c < och) (hc' : c' < och)
    (h : p * och + c = p' * och + c') : p = p' ∧ c = c' := by
  have hpos : 0 < och := by omega
  have h1 : (p * och + c) / och = p := by
    rw [Nat.add_comm, Nat.add_mul_div_right _ _ hpos, Nat.div_eq_of_lt hc, Nat.zero_add]
  have h2 : (p' * och + c') / och = p' := by
    rw [Nat.add_comm, Nat.add_mul_div_right _ _ hpos, Nat.div_eq_of_lt hc', Nat.zero_add]
  have hp : p = p' := by rw [← h1, ← h2, h]
  subst hp
  exact ⟨rfl, by omega⟩

theorem pixel_index_lt {och p c n : Nat} (hc : c < och) (hp : p < n) :
    p * och + c < n * och := by
  have h : (p + 1) * och ≤ n * och := Nat.mul_le_mul_right och hp
  rw [Nat.add_mul, Nat.one_mul] at h
  omega

theorem store_same (buf : Buf) (i : Nat) (v : Int) : store buf i v i = v := by
  simp [store]

theorem store_other (buf : Buf) (i j : Nat) (v : Int) (h : j ≠ i) : store buf i v j = buf j := by
  simp [store, h]

theorem Fills.init (och : Nat) (v : Nat → Nat → Int) (base : Buf) :
    Fills och v (fun _ _ => False) base base :=
  ⟨fun _ _ _ h => h.elim, fun _ _ => rfl⟩

theorem Fills.congr {och : Nat} {v : Nat → Nat → Int} {W W' : Nat → Nat → Prop}
    {base buf : Buf} (h : Fills och v W base buf)
    (hW : ∀ p c, c < och → (W' p c ↔ W p c)) : Fills och v W' base buf :=
  ⟨fun p c hc hw => h.1 p c hc ((hW p c hc).1 hw),
   fun i hi => h.2 i (fun p c hc hw => hi p c hc ((hW p c hc).2 hw))⟩

theorem Fills.congr_val {och : Nat} {v v' : Nat → Nat → Int} {W : Nat → Nat → Prop}
    {base buf : Buf} (h : Fills och v W base buf)
    (hv : ∀ p c, c < och → W p c → v p c = v' p c) : Fills och v' W base buf :=
  ⟨fun p c hc hw => (h.1 p c hc hw).trans (hv p c hc hw), h.2⟩

theorem Fills.store_pixel {och : Nat} {v : Nat → Nat → Int} {W V : Nat → Nat → Prop}
    {base buf : Buf} (h : Fills och v W base buf) {p c : Nat} (hc : c < och)
    (hW : ∀ p' c', c' < och → (V p' c' ↔ W p' c' ∨ (p' = p ∧ c' = c))) :
    Fills och v V base (store buf (p * och + c) (v p c)) := by
  constructor
  · intro p' c' hc' hw
    rcases (hW p' c' hc').1 hw with h1 | ⟨hp, hcc⟩
    · by_cases e : p' * och + c' = p * och + c
      · obtain ⟨hp, hcc⟩ := pixel_index_inj hc' hc e
        subst hp; subst hcc
        exact store_same _ _ _
      · rw [store_other _ _ _ _ e]
        exact h.1 p' c' hc' h1
    · subst hp; subst hcc
      exact store_same _ _ _
  · intro i hi
    have hne : i ≠ p * och + c := hi p c hc ((hW p c hc).2 (Or.inr ⟨rfl, rfl⟩))
    rw [store_other _ _ _ _ hne]
    exact h.2 i (fun p' c' hc' hw => hi p' c' hc' ((hW p' c' hc').2 (Or.inl hw)))

theorem Fills.unique {och : Nat} {v : Nat → Nat → Int} {W : Nat → Nat → Prop}
    {base b1 b2 : Buf} (h1 : Fills och v W base b1) (h2 : Fills och v W base b2) : b1 = b2 := by
  funext i
  by_cases hi : ∃ p c, c < och ∧ W p c ∧ i = p * och + c
  · obtain ⟨p, c, hc, hw, rfl⟩ := hi
    rw [h1.1 p c hc hw, h2.1 p c hc hw]
  · have hi' : ∀ p c, c < och → W p c → i ≠ p * och + c :=
      fun p c hc hw e => hi ⟨p, c, hc, hw, e⟩
    rw [h1.2 i hi', h2.2 i hi']

/-! ## Reference strategy: the buffer it computes -/

theorem reference_sum_eq (a : ConvArgs) (y x c : Nat) :
    reference_sum a y x c
      = dotN a ((y * a.input_x + x) * a.input_ch) (c * a.input_ch) a.input_ch := by
  simp [reference_sum, dotN, forLoop, DIM_KER_X, DIM_KER_Y, OffsetC]

theorem div_mod_pixel {w y x : Nat} (hx : x < w) :
    (y * w + x) / w = y ∧ (y * w + x) % w = x := by
  have hpos : 0 < w := by omega
  constructor
  · rw [Nat.add_comm, Nat.add_mul_div_right _ _ hpos, Nat.div_eq_of_lt hx, Nat.zero_add]
  · rw [Nat.add_comm, Nat.add_mul_mod_self_right, Nat.mod_eq_of_lt hx]

theorem reference_value_pixel (a : ConvArgs) {y x : Nat} (hx : x < a.output_x) (c : Nat) :
    reference_value a (y * a.output_x + x) c
      = requantize a (add_bias a.bias (reference_sum a y x c) c) c := by
  unfold reference_value conv_value
  rw [(div_mod_pixel hx).1, (div_mod_pixel hx).2, reference_sum_eq]

/-- The output buffer of the reference branch: every pixel `p < output_y * output_x` and
channel `c < output_ch` holds `reference_value`, everything else is untouched. -/
theorem reference_fills (a : ConvArgs) (output : Buf) (hg : guard_fails a.input_ch = false) :
    Fills a.output_ch (reference_value a) (fun p _ => p < a.output_y * a.output_x) output
      (reference a output).2 := by
  unfold reference
  rw [hg]
  simp only [Bool.false_eq_true, if_false]
  refine forLoop_inv
    (fun k buf => Fills a.output_ch (reference_value a) (fun p _ => p < k * a.output_x) output buf)
    _ _ _ ?_ ?_
  · exact (Fills.init _ _ _).congr (fun p c _ => by simp)
  · intro y t _ hP
    have hrow : Fills a.output_ch (reference_value a)
        (fun p _ => p < y * a.output_x + a.output_x) output
        (forLoop a.output_x (fun out_x output =>
          forLoop a.output_ch (fun out_channel output =>
            let sum := reference_sum a y out_x out_channel
            let sum := add_bias a.bias sum out_channel
            store output (OffsetC a.output_y a.output_x a.output_ch 0 y out_x out_channel)
              (requantize a sum out_channel)) output) t) := by
      refine forLoop_inv
        (fun i buf => Fills a.output_ch (reference_value a)
          (fun p _ => p < y * a.output_x + i) output buf) _ _ _ ?_ ?_
      · exact hP.congr (fun p c _ => by simp)
      · intro x t hx hQ
        have hpix : Fills a.output_ch (reference_value a)
            (fun p c => p < y * a.output_x + x ∨ (p = y * a.output_x + x ∧ c < a.output_ch))
            output
            (forLoop a.output_ch (fun out_channel output =>
              let sum := reference_sum a y x out_channel
              let sum := add_bias a.bias sum out_channel
              store output (OffsetC a.output_y a.output_x a.output_ch 0 y x out_channel)
                (requantize a sum out_channel)) t) := by
          refine forLoop_inv
            (fun j buf => Fills a.output_ch (reference_value a)
              (fun p c => p < y * a.output_x + x ∨ (p = y * a.output_x + x ∧ c < j))
              output buf) _ _ _ ?_ ?_
          · exact hQ.congr (fun p c _ => by simp)
          · intro c t hc hR
            have hidx : OffsetC a.output_y a.output_x a.output_ch 0 y x c
                = (y * a.output_x + x) * a.output_ch + c := by simp [OffsetC]
            simp only [hidx, ← reference_value_pixel a hx c]
            exact hR.store_pixel hc (fun p' c' _ => by omega)
        exact hpix.congr (fun p c hc => by omega)
    exact hrow.congr (fun p c _ => by rw [Nat.add_mul, Nat.one_mul])

/-! ## Reordered strategy: the buffer it computes -/

theorem reordered_dot_eq (a : ConvArgs) (src ker : Nat) :
    reordered_dot a src ker = ⟨dotN a src ker a.input_ch, src + a.input_ch, ker + a.input_ch⟩ := by
  unfold reordered_dot
  exact forLoop_inv (fun i (d : DotState) => d = ⟨dotN a src ker i, src + i, ker + i⟩) _ _ _ rfl
    (fun i t _ h => by subst h; rfl)

theorem reordered_channels_inv (a : ConvArgs) (base : Buf) (k : Nat) (s : ReorderedState)
    (h1 : s.input_start = k * a.input_ch) (h2 : s.kernel = 0) (h3 : s.out = k * a.output_ch)
    (h4 : Fills a.output_ch (conv_value a) (fun p _ => p < k) base s.output) :
    (reordered_channels a s).input_start = k * a.input_ch ∧
    (reordered_channels a s).out = (k + 1) * a.output_ch ∧
    Fills a.output_ch (conv_value a) (fun p _ => p < k + 1) base
      (reordered_channels a s).output := by
  have key := forLoop_inv
    (fun j (t : ReorderedState) => t.input_start = k * a.input_ch ∧ t.kernel = j * a.input_ch ∧
      t.out = k * a.output_ch + j ∧
      Fills a.output_ch (conv_value a) (fun p c => p < k ∨ (p = k ∧ c < j)) base t.output)
    a.output_ch
    (fun out_channel s =>
      let d := reordered_dot a s.input_start s.kernel
      let sum := add_bias a.bias d.sum out_channel
      { s with kernel := d.kernel, out := s.out + 1,
               output := store s.output s.out (requantize a sum out_channel) })
    s
    ⟨h1, by simp [h2], by simp [h3], h4.congr (fun p c _ => by simp)⟩
    (by
      intro j t hj ⟨e1, e2, e3, e4⟩
      refine ⟨e1, ?_, ?_, ?_⟩
      · show (reordered_dot a t.input_start t.kernel).kernel = (j + 1) * a.input_ch
        rw [reordered_dot_eq, e2, Nat.add_mul, Nat.one_mul]
      · show t.out + 1 = k * a.output_ch + (j + 1)
        rw [e3]; rfl
      · show Fills a.output_ch (conv_value a) _ base
          (store t.output t.out
            (requantize a (add_bias a.bias (reordered_dot a t.input_start t.kernel).sum j) j))
        rw [reordered_dot_eq, e1, e2, e3]
        exact e4.store_pixel hj (fun p' c' _ => by omega))
  obtain ⟨e1, _, e3, e4⟩ := key
  refine ⟨e1, ?_, e4.congr (fun p c hc => by omega)⟩
  show (reordered_channels a s).out = (k + 1) * a.output_ch
  rw [Nat.add_mul, Nat.one_mul]
  exact e3

/-- The output buffer of the element loop of the reordered branch after `n` elements. -/
theorem reordered_elements_fills (a : ConvArgs) (output : Buf) (n : Nat) :
    Fills a.output_ch (conv_value a) (fun p _ => p < n) output
      (reordered_elements a n output).output := by
  have key := forLoop_inv
    (fun k (t : ReorderedState) => t.input_start = k * a.input_ch ∧ t.out = k * a.output_ch ∧
      Fills a.output_ch (conv_value a) (fun p _ => p < k) output t.output)
    n
    (fun _ s =>
      let s := reordered_channels a { s with kernel := 0 }
      { s with input_start := s.input_start + a.input_ch })
    ⟨0, 0, 0, output⟩
    ⟨by simp, by simp, (Fills.init _ _ _).congr (fun p c _ => by simp)⟩
    (by
      intro k t _ ⟨e1, e3, e4⟩
      obtain ⟨f1, f3, f4⟩ :=
        reordered_channels_inv a output k { t with kernel := 0 } e1 rfl e3 e4
      refine ⟨?_, f3, f4⟩
      show (reordered_channels a { t with kernel := 0 }).input_start + a.input_ch
        = (k + 1) * a.input_ch
      rw [f1, Nat.add_mul, Nat.one_mul])
  exact key.2.2

/-! ## Unrolled strategy: the buffer it computes -/

theorem quad_dot_eq (a : ConvArgs) (src k0 k1 : Nat) (h4 : a.input_ch % 4 = 0) :
    quad_dot a src k0 k1 =
      ⟨dotN a src k0 a.input_ch, dotN a (src + a.input_ch) k0 a.input_ch,
       dotN a src k1 a.input_ch, dotN a (src + a.input_ch) k1 a.input_ch,
       src + a.input_ch, src + a.input_ch + a.input_ch, k0 + a.input_ch, k1 + a.input_ch⟩ := by
  have key := forLoop_inv
    (fun i (q : QuadState) => q =
      ⟨dotN a src k0 (4 * i), dotN a (src + a.input_ch) k0 (4 * i),
       dotN a src k1 (4 * i), dotN a (src + a.input_ch) k1 (4 * i),
       src + 4 * i, src + a.input_ch + 4 * i, k0 + 4 * i, k1 + 4 * i⟩)
    (a.input_ch / 4)
    (fun _ q => quad_step a (quad_step a (quad_step a (quad_step a q))))
    ⟨0, 0, 0, 0, src, src + a.input_ch, k0, k1⟩ rfl
    (fun i t _ h => by subst h; rfl)
  have h : 4 * (a.input_ch / 4) = a.input_ch := by omega
  dsimp only at key
  rw [h] at key
  exact key

theorem duo_dot_eq (a : ConvArgs) (src k0 k1 : Nat) (h4 : a.input_ch % 4 = 0) :
    duo_dot a src k0 k1 =
      ⟨dotN a src k0 a.input_ch, dotN a src k1 a.input_ch,
       src + a.input_ch, k0 + a.input_ch, k1 + a.input_ch⟩ := by
  have key := forLoop_inv
    (fun i (d : DuoState) => d =
      ⟨dotN a src k0 (4 * i), dotN a src k1 (4 * i), src + 4 * i, k0 + 4 * i, k1 + 4 * i⟩)
    (a.input_ch / 4)
    (fun _ d => duo_step a (duo_step a (duo_step a (duo_step a d))))
    ⟨0, 0, src, k0, k1⟩ rfl
    (fun i t _ h => by subst h; rfl)
  have h : 4 * (a.input_ch / 4) = a.input_ch := by omega
  dsimp only at key
  rw [h] at key
  exact key


theorem or_iff_or_or {w x y z : Prop} (h : x ↔ y ∨ z) : (w ∨ x) ↔ ((w ∨ y) ∨ z) := by
  rw [h, or_assoc]

theorem conv_value_succ_pixel (a : ConvArgs) (p c : Nat) :
    requantize a (add_bias a.bias
      (dotN a (p * a.input_ch + a.input_ch) (c * a.input_ch) a.input_ch) c) c
      = conv_value a (p + 1) c := by
  unfold conv_value
  rw [Nat.add_mul, Nat.one_mul]

theorem paired_channels_inv (a : ConvArgs) (h4 : a.input_ch % 4 = 0) (base : Buf) (p0 : Nat)
    (W0 : Nat → Nat → Prop) (mem : Buf)
    (hF : Fills a.output_ch (conv_value a) W0 base mem) :
    Fills a.output_ch (conv_value a)
      (fun p c => W0 p c ∨ ((p = p0 ∨ p = p0 + 1) ∧ c < a.output_ch / 2 * 2)) base
      (paired_channels a (p0 * a.input_ch)
        ⟨0, a.input_ch, p0 * a.output_ch, p0 * a.output_ch + a.output_ch, mem⟩).mem := by
  have key := forLoop_inv
    (fun j (t : PairState) => t.kernel_0 = j * 2 * a.input_ch ∧
      t.kernel_1 = (j * 2 + 1) * a.input_ch ∧
      t.out_0 = p0 * a.output_ch + j * 2 ∧ t.out_1 = (p0 + 1) * a.output_ch + j * 2 ∧
      Fills a.output_ch (conv_value a)
        (fun p c => W0 p c ∨ ((p = p0 ∨ p = p0 + 1) ∧ c < j * 2)) base t.mem)
    (a.output_ch / 2)
    (fun out_channel s =>
      let q := quad_dot a (p0 * a.input_ch) s.kernel_0 s.kernel_1
      let sum_0 := add_bias a.bias q.sum_0 (out_channel * 2)
      let sum_1 := add_bias a.bias q.sum_1 (out_channel * 2)
      let sum_2 := add_bias a.bias q.sum_2 (out_channel * 2 + 1)
      let sum_3 := add_bias a.bias q.sum_3 (out_channel * 2 + 1)
      let mem := store s.mem s.out_0 (requantize a sum_0 (out_channel * 2))
      let out_0 := s.out_0 + 1
      let mem := store mem s.out_1 (requantize a sum_1 (out_channel * 2))
      let out_1 := s.out_1 + 1
      let mem := store mem out_0 (requantize a sum_2 (out_channel * 2 + 1))
      let out_0 := out_0 + 1
      let mem := store mem out_1 (requantize a sum_3 (out_channel * 2 + 1))
      let out_1 := out_1 + 1
      { kernel_0 := q.kernel_0 + a.input_ch, kernel_1 := q.kernel_1 + a.input_ch,
        out_0 := out_0, out_1 := out_1, mem := mem })
    ⟨0, a.input_ch, p0 * a.output_ch, p0 * a.output_ch + a.output_ch, mem⟩
    ⟨by simp, by simp, by simp, by simp [Nat.add_mul], hF.congr (fun p c _ => by simp)⟩
    (by
      intro j t hj ⟨e1, e2, e3, e4, e5⟩
      obtain ⟨k0, k1, o0, o1, m⟩ := t
      dsimp only at e1 e2 e3 e4 e5
      subst e1 e2 e3 e4
      dsimp only
      rw [quad_dot_eq a _ _ _ h4]
      dsimp only
      refine ⟨by ring, by ring, by ring, by ring, ?_⟩
      rw [conv_value_succ_pixel, conv_value_succ_pixel]
      have s0 := e5.store_pixel (V := fun p c => W0 p c ∨
        ((p = p0 ∨ p = p0 + 1) ∧ c < j * 2) ∨ (p = p0 ∧ c = j * 2))
        (p := p0) (c := j * 2) (by omega) (fun p' c' _ => by tauto)
      have s1 := s0.store_pixel (V := fun p c => W0 p c ∨
        ((p = p0 ∨ p = p0 + 1) ∧ c < j * 2 + 1))
        (p := p0 + 1) (c := j * 2) (by omega) (fun p' c' _ => or_iff_or_or (by omega))
      have s2 := s1.store_pixel (V := fun p c => W0 p c ∨
        ((p = p0 ∨ p = p0 + 1) ∧ c < j * 2 + 1) ∨ (p = p0 ∧ c = j * 2 + 1))
        (p := p0) (c := j * 2 + 1) (by omega) (fun p' c' _ => by tauto)
      have s3 := s2.store_pixel (V := fun p c => W0 p c ∨
        ((p = p0 ∨ p = p0 + 1) ∧ c < (j + 1) * 2))
        (p := p0 + 1) (c := j * 2 + 1) (by omega) (fun p' c' _ => or_iff_or_or (by omega))
      exact s3)
  exact key.2.2.2.2


theorem leftover_channels_inv (a : ConvArgs) (h4 : a.input_ch % 4 = 0) (base : Buf) (p0 : Nat)
    (W0 : Nat → Nat → Prop) (mem : Buf)
    (hF : Fills a.output_ch (conv_value a) W0 base mem) :
    Fills a.output_ch (conv_value a)
      (fun p c => W0 p c ∨ (p = p0 ∧ c < a.output_ch / 2 * 2)) base
      (unrolled_leftover a ⟨p0 * a.input_ch, p0 * a.output_ch, mem⟩).mem := by
  have key := forLoop_inv
    (fun j (t : PairState) => t.kernel_0 = j * 2 * a.input_ch ∧
      t.kernel_1 = (j * 2 + 1) * a.input_ch ∧ t.out_0 = p0 * a.output_ch + j * 2 ∧
      Fills a.output_ch (conv_value a) (fun p c => W0 p c ∨ (p = p0 ∧ c < j * 2)) base t.mem)
    (a.output_ch / 2)
    (fun out_channel p =>
      let d := duo_dot a (p0 * a.input_ch) p.kernel_0 p.kernel_1
      let sum_0 := add_bias a.bias d.sum_0 (out_channel * 2)
      let sum_1 := add_bias a.bias d.sum_1 (out_channel * 2 + 1)
      let mem := store p.mem p.out_0 (requantize a sum_0 (out_channel * 2))
      let out_0 := p.out_0 + 1
      let mem := store mem out_0 (requantize a sum_1 (out_channel * 2 + 1))
      let out_0 := out_0 + 1
      { p with kernel_0 := d.kernel_0 + a.input_ch, kernel_1 := d.kernel_1 + a.input_ch,
               out_0 := out_0, mem := mem })
    ⟨0, a.input_ch, p0 * a.output_ch, p0 * a.output_ch, mem⟩
    ⟨by simp, by simp, by simp, hF.congr (fun p c _ => by simp)⟩
    (by
      intro j t hj ⟨e1, e2, e3, e5⟩
      obtain ⟨k0, k1, o0, o1, m⟩ := t
      dsimp only at e1 e2 e3 e5
      subst e1 e2 e3
      dsimp only
      rw [duo_dot_eq a _ _ _ h4]
      dsimp only
      refine ⟨by ring, by ring, by ring, ?_⟩
      have s0 := e5.store_pixel (V := fun p c => W0 p c ∨ (p = p0 ∧ c < j * 2 + 1))
        (p := p0) (c := j * 2) (by omega) (fun p' c' _ => or_iff_or_or (by omega))
      have s1 := s0.store_pixel (V := fun p c => W0 p c ∨ (p = p0 ∧ c < (j + 1) * 2))
        (p := p0) (c := j * 2 + 1) (by omega) (fun p' c' _ => or_iff_or_or (by omega))
      exact s1)
  exact key.2.2.2

/-- The state of the unrolled branch after `n` rounds of the paired loop. -/
theorem unrolled_pairs_inv (a : ConvArgs) (h4 : a.input_ch % 4 = 0) (output : Buf) (n : Nat) :
    (unrolled_pairs a n output).input_start = 2 * n * a.input_ch ∧
    (unrolled_pairs a n output).output = 2 * n * a.output_ch ∧
    Fills a.output_ch (conv_value a) (fun p c => p < 2 * n ∧ c < a.output_ch / 2 * 2) output
      (unrolled_pairs a n output).mem := by
  refine forLoop_inv
    (fun k (t : UnrolledState) => t.input_start = 2 * k * a.input_ch ∧
      t.output = 2 * k * a.output_ch ∧
      Fills a.output_ch (conv_value a) (fun p c => p < 2 * k ∧ c < a.output_ch / 2 * 2) output
        t.mem)
    n _ _ ⟨by simp, by simp, (Fills.init _ _ _).congr (fun p c _ => by simp)⟩ ?_
  intro k t _ ⟨e1, e2, e3⟩
  obtain ⟨i0, o0, m⟩ := t
  dsimp only at e1 e2 e3
  subst e1 e2
  dsimp only
  refine ⟨by ring, by ring, ?_⟩
  exact (paired_channels_inv a h4 output (2 * k) _ m e3).congr (fun p c _ => by omega)

theorem num_elements_eq (a : ConvArgs) (hN : a.output_x * a.output_y < 2147483648) :
    num_elements a = ((a.output_x * a.output_y : Nat) : Int) := by
  unfold num_elements
  rw [← Int.natCast_mul]
  exact wrap32_of_range _ (by omega) (by omega)

theorem tdiv_two_toNat (n : Nat) : (Int.tdiv (n : Int) 2).toNat = n / 2 := by
  have h : Int.tdiv (n : Int) ((2 : Nat) : Int) = ((n / 2 : Nat) : Int) :=
    (Int.ofNat_tdiv n 2).symm
  have h2 : Int.tdiv (n : Int) 2 = ((n / 2 : Nat) : Int) := h
  rw [h2]
  exact Int.toNat_natCast _

/-- The output buffer of the unrolled branch: every pixel `p < output_x * output_y` holds its
convolution result in the channels `c < 2 * (output_ch / 2)`, everything else is untouched. -/
theorem unrolled_fills (a : ConvArgs) (output : Buf) (hg : guard_fails a.input_ch = false)
    (hN : a.output_x * a.output_y < 2147483648) :
    Fills a.output_ch (conv_value a)
      (fun p c => p < a.output_x * a.output_y ∧ c < a.output_ch / 2 * 2) output
      (unrolled a output).2 := by
  have h4 : a.input_ch % 4 = 0 := by
    simp [guard_fails] at hg; exact hg.1
  unfold unrolled
  rw [hg, num_elements_eq a hN, tdiv_two_toNat]
  simp only [Bool.false_eq_true, if_false]
  obtain ⟨e1, e2, e3⟩ := unrolled_pairs_inv a h4 output (a.output_x * a.output_y / 2)
  by_cases hodd : ((a.output_x * a.output_y : Nat) : Int) % 2 ≠ 0
  · rw [if_pos hodd]
    dsimp only
    have hs : unrolled_pairs a (a.output_x * a.output_y / 2) output
        = ⟨2 * (a.output_x * a.output_y / 2) * a.input_ch,
           2 * (a.output_x * a.output_y / 2) * a.output_ch,
           (unrolled_pairs a (a.output_x * a.output_y / 2) output).mem⟩ := by
      rw [← e1, ← e2]
    rw [hs]
    exact (leftover_channels_inv a h4 output _ _ _ e3).congr (fun p c _ => by omega)
  · rw [if_neg hodd]
    dsimp only
    exact e3.congr (fun p c _ => by omega)

/-! ## Claims -/

theorem guard_passes {n : Nat} (h4 : n % 4 = 0) : guard_fails n = false := by
  simp [guard_fails]; omega

theorem reference_value_eq_conv (a : ConvArgs) (hx : a.input_x = a.output_x) (p c : Nat) :
    reference_value a p c = conv_value a p c := by
  unfold reference_value
  rw [hx, Nat.div_add_mod']

theorem reference_status (a : ConvArgs) (output : Buf) (hg : guard_fails a.input_ch = false) :
    (reference a output).1 = STATE_SUCCESS := by
  simp [reference, hg]

theorem reordered_status (a : ConvArgs) (output : Buf) (hg : guard_fails a.input_ch = false) :
    (reordered a output).1 = STATE_SUCCESS := by
  simp [reordered, hg]

theorem unrolled_status (a : ConvArgs) (output : Buf) (hg : guard_fails a.input_ch = false) :
    (unrolled a output).1 = STATE_SUCCESS := by
  unfold unrolled
  rw [hg]
  simp only [Bool.false_eq_true, if_false]
  split <;> rfl

/-- The output buffer of the reordered branch: every pixel `p < output_x * output_y` and
channel `c < output_ch` holds its convolution result, everything else is untouched. -/
theorem reordered_fills (a : ConvArgs) (output : Buf) (hg : guard_fails a.input_ch = false)
    (hN : a.output_x * a.output_y < 2147483648) :
    Fills a.output_ch (conv_value a) (fun p _ => p < a.output_x * a.output_y) output
      (reordered a output).2 := by
  unfold reordered
  rw [hg, num_elements_eq a hN, Int.toNat_natCast]
  simp only [Bool.false_eq_true, if_false]
  exact reordered_elements_fills a output _

/-- The reference branch in terms of linear pixel indices, when the input and output widths
agree. -/
theorem reference_fills_linear (a : ConvArgs) (output : Buf)
    (hg : guard_fails a.input_ch = false) (hx : a.input_x = a.output_x) :
    Fills a.output_ch (conv_value a) (fun p _ => p < a.output_x * a.output_y) output
      (reference a output).2 :=
  ((reference_fills a output hg).congr_val
    (fun p c _ _ => reference_value_eq_conv a hx p c)).congr
    (fun p c _ => by rw [Nat.mul_comm])

theorem unrolled_eq_reference_aux (a : ConvArgs) (output : Buf) (h4 : a.input_ch % 4 = 0)
    (hx : a.input_x = a.output_x) (hN : a.output_x * a.output_y < 2147483648)
    (heven : a.output_ch % 2 = 0) : unrolled a output = reference a output := by
  have hg := guard_passes h4
  refine Prod.ext ((unrolled_status a output hg).trans (reference_status a output hg).symm) ?_
  exact Fills.unique ((unrolled_fills a output hg hN).congr (fun p c hc => by omega))
    (reference_fills_linear a output hg hx)

/-- C1: for every call with `input_ch` divisible by 4 and `input_x = output_x` (and a pixel
count that fits `int32_t`), whatever the activations, weights, bias (present or absent),
scales, offsets and clamp values, the reordered scalar strategy returns the same status and
the same output buffer, element for element, as the reference strategy, and both return
`STATE_SUCCESS`. -/
theorem reordered_eq_reference (a : ConvArgs) (output : Buf) (h4 : a.input_ch % 4 = 0)
    (hx : a.input_x = a.output_x) (hN : a.output_x * a.output_y < 2147483648) :
    reordered a output = reference a output ∧
    (reordered a output).1 = STATE_SUCCESS ∧ (reference a output).1 = STATE_SUCCESS := by
  have hg := guard_passes h4
  refine ⟨Prod.ext ((reordered_status a output hg).trans (reference_status a output hg).symm) ?_,
    reordered_status a output hg, reference_status a output hg⟩
  exact Fills.unique (reordered_fills a output hg hN) (reference_fills_linear a output hg hx)

theorem reordered_eq_reference_witness :
    (sampleArgs.input_ch % 4 = 0 ∧ sampleArgs.input_x = sampleArgs.output_x ∧
      sampleArgs.output_x * sampleArgs.output_y < 2147483648) ∧
    (reordered sampleArgs filled77 = reference sampleArgs filled77 ∧
      (reordered sampleArgs filled77).1 = STATE_SUCCESS ∧
      (reference sampleArgs filled77).1 = STATE_SUCCESS) :=
  ⟨⟨by decide, by decide, by decide⟩,
   reordered_eq_reference sampleArgs filled77 (by decide) (by decide) (by decide)⟩

/-- C2 (as stated, refuted): with `input_ch = 4`, equal input and output shapes and the
odd `output_ch = 3`, the unrolled strategy leaves the element at offset 2 (pixel 0,
channel 2) as it was, while the reference strategy stores the convolution result there. -/
theorem unrolled_odd_channels_differs :
    oddChannelArgs.input_ch % 4 = 0 ∧ oddChannelArgs.input_x = oddChannelArgs.output_x ∧
    oddChannelArgs.input_y = oddChannelArgs.output_y ∧
    (unrolled oddChannelArgs filled77).2 2 = 77 ∧
    (reference oddChannelArgs filled77).2 2 = 9 ∧
    unrolled oddChannelArgs filled77 ≠ reference oddChannelArgs filled77 := by
  refine ⟨by decide, by decide, by decide, by decide, by decide, ?_⟩
  intro h
  have h2 : (unrolled oddChannelArgs filled77).2 2 = (reference oddChannelArgs filled77).2 2 := by
    rw [h]
  revert h2
  decide

/-- C2 (amended): for every call with `input_x = output_x`, `input_ch` divisible by 4 and
`output_ch` divisible by 2 (and a pixel count that fits `int32_t`), the 2x-unrolled scalar
strategy returns the same status and output buffer as the reference strategy. -/
theorem unrolled_eq_reference_even (a : ConvArgs) (output : Buf) (h4 : a.input_ch % 4 = 0)
    (hx : a.input_x = a.output_x) (hN : a.output_x * a.output_y < 2147483648)
    (heven : a.output_ch % 2 = 0) : unrolled a output = reference a output :=
  unrolled_eq_reference_aux a output h4 hx hN heven

theorem unrolled_eq_reference_even_witness :
    (sampleArgs.input_ch % 4 = 0 ∧ sampleArgs.input_x = sampleArgs.output_x ∧
      sampleArgs.output_x * sampleArgs.output_y < 2147483648 ∧ sampleArgs.output_ch % 2 = 0) ∧
    unrolled sampleArgs filled77 = reference sampleArgs filled77 :=
  ⟨⟨by decide, by decide, by decide, by decide⟩,
   unrolled_eq_reference_even sampleArgs filled77 (by decide) (by decide) (by decide)
     (by decide)⟩


theorem unrolled_pairs_state (a : ConvArgs) (h4 : a.input_ch % 4 = 0) (output : Buf) (n : Nat) :
    unrolled_pairs a n output
      = ⟨2 * n * a.input_ch, 2 * n * a.output_ch, (unrolled_pairs a n output).mem⟩ := by
  obtain ⟨e1, e2, _⟩ := unrolled_pairs_inv a h4 output n
  rw [← e1, ← e2]

theorem unrolled_snd (a : ConvArgs) (output : Buf) (h4 : a.input_ch % 4 = 0)
    (hN : a.output_x * a.output_y < 2147483648) :
    (unrolled a output).2 =
      if a.output_x * a.output_y % 2 = 1 then
        (unrolled_leftover a (unrolled_pairs a (a.output_x * a.output_y / 2) output)).mem
      else (unrolled_pairs a (a.output_x * a.output_y / 2) output).mem := by
  unfold unrolled
  rw [guard_passes h4, num_elements_eq a hN, tdiv_two_toNat]
  simp only [Bool.false_eq_true, if_false]
  by_cases hodd : a.output_x * a.output_y % 2 = 1
  · rw [if_pos hodd, if_pos (by omega)]
  · rw [if_neg hodd, if_neg (by omega)]

/-- C3: for every call with `input_x = output_x`, `input_ch` divisible by 4 and `output_ch`
divisible by 2 (and a pixel count `n = output_x * output_y` that fits `int32_t`), even or
odd, the 2x-unrolled scalar strategy returns the same status and output buffer as the
reference strategy; the paired loop produces the pixels `2k` and `2k + 1` for `k < n / 2`,
each with all `output_ch` channels in channel order, and when `n` is odd the paired loop
leaves the last pixel as it was and the leftover pass produces it. -/
theorem unrolled_pairs_then_leftover (a : ConvArgs) (output : Buf) (h4 : a.input_ch % 4 = 0)
    (hx : a.input_x = a.output_x) (hN : a.output_x * a.output_y < 2147483648)
    (heven : a.output_ch % 2 = 0) :
    unrolled a output = reference a output ∧
    (unrolled a output).2 =
      (if a.output_x * a.output_y % 2 = 1 then
        (unrolled_leftover a (unrolled_pairs a (a.output_x * a.output_y / 2) output)).mem
      else (unrolled_pairs a (a.output_x * a.output_y / 2) output).mem) ∧
    (∀ k c, k < a.output_x * a.output_y / 2 → c < a.output_ch →
      (unrolled_pairs a (a.output_x * a.output_y / 2) output).mem (2 * k * a.output_ch + c)
        = (reference a output).2 (2 * k * a.output_ch + c) ∧
      (unrolled_pairs a (a.output_x * a.output_y / 2) output).mem
          ((2 * k + 1) * a.output_ch + c)
        = (reference a output).2 ((2 * k + 1) * a.output_ch + c)) ∧
    (a.output_x * a.output_y % 2 = 1 → ∀ c, c < a.output_ch →
      (unrolled_pairs a (a.output_x * a.output_y / 2) output).mem
          ((a.output_x * a.output_y - 1) * a.output_ch + c)
        = output ((a.output_x * a.output_y - 1) * a.output_ch + c) ∧
      (unrolled_leftover a (unrolled_pairs a (a.output_x * a.output_y / 2) output)).mem
          ((a.output_x * a.output_y - 1) * a.output_ch + c)
        = (reference a output).2 ((a.output_x * a.output_y - 1) * a.output_ch + c)) := by
  have hg := guard_passes h4
  have href := reference_fills_linear a output hg hx
  obtain ⟨_, _, hpairs⟩ := unrolled_pairs_inv a h4 output (a.output_x * a.output_y / 2)
  refine ⟨unrolled_eq_reference_aux a output h4 hx hN heven, unrolled_snd a output h4 hN,
    ?_, ?_⟩
  · intro k c hk hc
    constructor
    · rw [hpairs.1 (2 * k) c hc ⟨by omega, by omega⟩, href.1 (2 * k) c hc (by omega)]
    · rw [hpairs.1 (2 * k + 1) c hc ⟨by omega, by omega⟩, href.1 (2 * k + 1) c hc (by omega)]
  · intro hodd c hc
    have hlast : a.output_x * a.output_y - 1 = 2 * (a.output_x * a.output_y / 2) := by omega
    constructor
    · refine hpairs.2 _ (fun p c' hc' hw e => ?_)
      obtain ⟨hp, _⟩ := pixel_index_inj hc hc' e
      omega
    · have hleft := leftover_channels_inv a h4 output (2 * (a.output_x * a.output_y / 2)) _ _
        hpairs
      rw [← unrolled_pairs_state a h4 output] at hleft
      rw [hlast, hleft.1 _ c hc (Or.inr ⟨rfl, by omega⟩), href.1 _ c hc (by omega)]

theorem unrolled_pairs_then_leftover_witness :
    (sampleArgs.input_ch % 4 = 0 ∧ sampleArgs.input_x = sampleArgs.output_x ∧
      sampleArgs.output_x * sampleArgs.output_y < 2147483648 ∧ sampleArgs.output_ch % 2 = 0) ∧
    (unrolled_leftover sampleArgs (unrolled_pairs sampleArgs 1 filled77)).mem (2 * 4 + 3)
      = (reference sampleArgs filled77).2 (2 * 4 + 3) :=
  ⟨⟨by decide, by decide, by decide, by decide⟩,
   ((unrolled_pairs_then_leftover sampleArgs filled77 (by decide) (by decide) (by decide)
     (by decide)).2.2.2 (by decide) 3 (by decide)).2⟩

theorem requantize_acc (a : ConvArgs) (pix c : Nat) :
    conv_value a pix c
      = wrap8 (MIN (MAX (wrap32 (fpreq (wrap32 (acc_spec a pix c)) (a.scales c) + a.out_offset))
          a.out_activation_min) a.out_activation_max) := by
  unfold conv_value requantize
  rw [add_bias_dotN_eq]

theorem reference_pixel_lt {w h y x : Nat} (hy : y < h) (hx : x < w) : y * w + x < h * w := by
  have h1 : (y + 1) * w ≤ h * w := Nat.mul_le_mul_right w hy
  rw [Nat.add_mul, Nat.one_mul] at h1
  omega

/-- C4: for every call of the reference strategy with `input_ch` divisible by 4 and every
`out_y < output_y`, `out_x < output_x`, `c < output_ch`, the element at output offset
`(out_y * output_x + out_x) * output_ch + c` is the `int8_t` narrowing of
`min(max(trunc(float(acc) * scales[c]) + out_offset, out_activation_min), out_activation_max)`,
where `acc` is the sum over `i < input_ch` of
`(input[(out_y * input_x + out_x) * input_ch + i] + input_offset) * kernel[c * input_ch + i]`
plus `bias[c]` (plus `0` without a bias vector), `acc` and the addition of `out_offset` being
taken in 32-bit arithmetic; when neither leaves the `int32_t` range the formula holds with
the exact integers. -/
theorem reference_output_formula (a : ConvArgs) (output : Buf) (out_y out_x c : Nat)
    (h4 : a.input_ch % 4 = 0) (hy : out_y < a.output_y) (hx : out_x < a.output_x)
    (hc : c < a.output_ch) :
    (reference a output).2 ((out_y * a.output_x + out_x) * a.output_ch + c)
      = wrap8 (MIN (MAX
          (wrap32 (fpreq (wrap32 (acc_spec a (out_y * a.input_x + out_x) c)) (a.scales c)
            + a.out_offset))
          a.out_activation_min) a.out_activation_max) ∧
    (-2147483648 ≤ acc_spec a (out_y * a.input_x + out_x) c →
      acc_spec a (out_y * a.input_x + out_x) c ≤ 2147483647 →
      -2147483648 ≤ fpreq (acc_spec a (out_y * a.input_x + out_x) c) (a.scales c)
        + a.out_offset →
      fpreq (acc_spec a (out_y * a.input_x + out_x) c) (a.scales c) + a.out_offset
        ≤ 2147483647 →
      (reference a output).2 ((out_y * a.output_x + out_x) * a.output_ch + c)
        = wrap8 (MIN (MAX
            (fpreq (acc_spec a (out_y * a.input_x + out_x) c) (a.scales c) + a.out_offset)
            a.out_activation_min) a.out_activation_max)) := by
  have hval : (reference a output).2 ((out_y * a.output_x + out_x) * a.output_ch + c)
      = conv_value a (out_y * a.input_x + out_x) c := by
    rw [(reference_fills a output (guard_passes h4)).1 _ c hc (reference_pixel_lt hy hx)]
    unfold reference_value
    rw [(div_mod_pixel hx).1, (div_mod_pixel hx).2]
  rw [hval, requantize_acc]
  refine ⟨rfl, fun h1 h2 h3 h4 => ?_⟩
  rw [wrap32_of_range _ h1 h2, wrap32_of_range _ h3 h4]

theorem reference_output_formula_witness :
    (sampleArgs.input_ch % 4 = 0 ∧ 0 < sampleArgs.output_y ∧ 2 < sampleArgs.output_x ∧
      3 < sampleArgs.output_ch) ∧
    (reference sampleArgs filled77).2 ((0 * sampleArgs.output_x + 2) * sampleArgs.output_ch + 3)
      = wrap8 (MIN (MAX
          (wrap32 (fpreq (wrap32 (acc_spec sampleArgs (0 * sampleArgs.input_x + 2) 3))
            (sampleArgs.scales 3) + sampleArgs.out_offset))
          sampleArgs.out_activation_min) sampleArgs.out_activation_max) :=
  ⟨⟨by decide, by decide, by decide, by decide⟩,
   (reference_output_formula sampleArgs filled77 0 2 3 (by decide) (by decide) (by decide)
     (by decide)).1⟩


theorem guard_fails_iff (n : Nat) : guard_fails n = true ↔ n % 4 ≠ 0 := by
  simp [guard_fails]; omega

theorem rejected_aux (a : ConvArgs) (output runtime_buf : Buf) (h : a.input_ch % 4 ≠ 0) :
    reference a output = (PARAM_NO_SUPPORT, output) ∧
    reordered a output = (PARAM_NO_SUPPORT, output) ∧
    unrolled a output = (PARAM_NO_SUPPORT, output) ∧
    ∀ mm : MatMultKernel,
      packed mm a output runtime_buf = some (PARAM_NO_SUPPORT, output, runtime_buf) := by
  have hg : guard_fails a.input_ch = true := (guard_fails_iff _).2 h
  refine ⟨?_, ?_, ?_, fun mm => ?_⟩
  · simp [reference, hg]
  · simp [reordered, hg]
  · simp [unrolled, hg]
  · simp [packed, hg]

/-- C5: for every call with `input_ch` not divisible by 4, every strategy (reference,
reordered, unrolled, and packed with any inner kernel) returns `PARAM_NO_SUPPORT` and the
output buffer after the call is the output buffer before the call. -/
theorem rejected_call_writes_nothing (a : ConvArgs) (output runtime_buf : Buf)
    (h : a.input_ch % 4 ≠ 0) :
    reference a output = (PARAM_NO_SUPPORT, output) ∧
    reordered a output = (PARAM_NO_SUPPORT, output) ∧
    unrolled a output = (PARAM_NO_SUPPORT, output) ∧
    ∀ mm : MatMultKernel,
      packed mm a output runtime_buf = some (PARAM_NO_SUPPORT, output, runtime_buf) :=
  rejected_aux a output runtime_buf h

theorem rejected_call_writes_nothing_witness :
    threeChannelArgs.input_ch % 4 ≠ 0 ∧
    (reference threeChannelArgs filled77 = (PARAM_NO_SUPPORT, filled77) ∧
     reordered threeChannelArgs filled77 = (PARAM_NO_SUPPORT, filled77) ∧
     unrolled threeChannelArgs filled77 = (PARAM_NO_SUPPORT, filled77) ∧
     ∀ mm : MatMultKernel,
       packed mm threeChannelArgs filled77 zeroBuf = some (PARAM_NO_SUPPORT, filled77, zeroBuf)) :=
  ⟨by decide, rejected_call_writes_nothing threeChannelArgs filled77 zeroBuf (by decide)⟩

theorem requantize_range (a : ConvArgs) (sum : Int) (c : Nat)
    (hlo : -128 ≤ a.out_activation_min) (hle : a.out_activation_min ≤ a.out_activation_max)
    (hhi : a.out_activation_max ≤ 127) :
    a.out_activation_min ≤ requantize a sum c ∧ requantize a sum c ≤ a.out_activation_max := by
  unfold requantize
  dsimp only
  have h : a.out_activation_min ≤
        MIN (MAX (wrap32 (fpreq sum (a.scales c) + a.out_offset)) a.out_activation_min)
          a.out_activation_max ∧
      MIN (MAX (wrap32 (fpreq sum (a.scales c) + a.out_offset)) a.out_activation_min)
          a.out_activation_max ≤ a.out_activation_max := by
    unfold MIN MAX
    split_ifs <;> omega
  rw [wrap8_of_range _ (by omega) (by omega)]
  exact h

theorem conv_value_range (a : ConvArgs) (pix c : Nat)
    (hlo : -128 ≤ a.out_activation_min) (hle : a.out_activation_min ≤ a.out_activation_max)
    (hhi : a.out_activation_max ≤ 127) :
    a.out_activation_min ≤ conv_value a pix c ∧ conv_value a pix c ≤ a.out_activation_max :=
  requantize_range a _ c hlo hle hhi

/-! ## Packed strategy: the leftover path -/

theorem leftover_rounds (a : ConvArgs) :
    (a.input_ch * DIM_KER_X * DIM_KER_Y) >>> 2 = a.input_ch / 4 := by
  simp [DIM_KER_X, DIM_KER_Y, Nat.shiftRight_eq_div_pow]

theorem leftover_dot_ker (a : ConvArgs) (buf : Buf) (sum : Int) (ker : Nat)
    (h4 : a.input_ch % 4 = 0) : (leftover_dot a buf sum ker).ker_a = ker + a.input_ch := by
  unfold leftover_dot
  rw [leftover_rounds]
  have key := forLoop_inv (fun i (c : ColState) => c.ker_a = ker + 4 * i) (a.input_ch / 4)
    (fun _ c =>
      let ker := read_and_pad_reordered a.kernel c.ker_a
      let in_b1 := arm_nn_read_q15x2 buf c.ip_as_col
      let sum := SMLAD ker.1 in_b1 c.sum
      let in_b2 := arm_nn_read_q15x2 buf (c.ip_as_col + 2)
      let sum := SMLAD ker.2 in_b2 sum
      { sum := sum, ker_a := c.ker_a + 4, ip_as_col := c.ip_as_col + 4 })
    ⟨sum, ker, 0⟩ rfl
    (fun i t _ h => by dsimp only at h ⊢; omega)
  dsimp only at key
  rw [key]
  omega

theorem leftover_channels_none (a : ConvArgs) (buf : Buf) (l : LeftoverState)
    (hb : a.bias = none) (hpos : 0 < a.output_ch) : leftover_channels a buf l = none := by
  unfold leftover_channels
  obtain ⟨n, hn⟩ : ∃ n, a.output_ch = n + 1 := ⟨a.output_ch - 1, by omega⟩
  rw [hn, forLoop_succ]
  split
  · rfl
  · simp only [hb]

theorem leftover_channels_some (a : ConvArgs) (buf : Buf) (l : LeftoverState) (b : Buf)
    (hb : a.bias = some b) (h4 : a.input_ch % 4 = 0) :
    ∃ r, leftover_channels a buf l = some r ∧ r.out = l.out + a.output_ch ∧
      (∀ c, c < a.output_ch → r.output (l.out + c)
        = requantize a (leftover_dot a buf (b c) (l.ker_a + c * a.input_ch)).sum c) ∧
      (∀ i, i < l.out ∨ l.out + a.output_ch ≤ i → r.output i = l.output i) := by
  have key := forLoop_inv
    (fun j (o : Option LeftoverState) => ∃ r, o = some r ∧ r.out = l.out + j ∧
      r.ker_a = l.ker_a + j * a.input_ch ∧
      (∀ c, c < j → r.output (l.out + c)
        = requantize a (leftover_dot a buf (b c) (l.ker_a + c * a.input_ch)).sum c) ∧
      (∀ i, i < l.out ∨ l.out + j ≤ i → r.output i = l.output i))
    a.output_ch
    (fun i_ch_out r =>
      match r with
      | none => none
      | some l =>
        match a.bias with
        | none => none
        | some bias =>
          let c := leftover_dot a buf (bias i_ch_out) l.ker_a
          some { ker_a := c.ker_a, out := l.out + 1,
                 output := store l.output l.out (requantize a c.sum i_ch_out) })
    (some l)
    ⟨l, rfl, rfl, by simp, fun c hc => by omega, fun _ _ => rfl⟩
    (by
      intro j o _ ⟨r, ho, e1, e2, e3, e4⟩
      subst ho
      simp only [hb]
      refine ⟨_, rfl, ?_, ?_, ?_, ?_⟩
      · show r.out + 1 = l.out + (j + 1)
        omega
      · show (leftover_dot a buf (b j) r.ker_a).ker_a = l.ker_a + (j + 1) * a.input_ch
        rw [leftover_dot_ker a buf _ _ h4, e2, Nat.add_mul, Nat.one_mul, Nat.add_assoc]
      · intro c hc
        show store r.output r.out (requantize a (leftover_dot a buf (b j) r.ker_a).sum j)
          (l.out + c) = _
        by_cases hcj : c = j
        · subst hcj
          rw [e1, store_same, e2]
        · rw [store_other _ _ _ _ (by omega)]
          exact e3 c (by omega)
      · intro i hi
        show store r.output r.out (requantize a (leftover_dot a buf (b j) r.ker_a).sum j) i = _
        rw [store_other _ _ _ _ (by omega)]
        exact e4 i (by omega))
  obtain ⟨r, ho, e1, _, e3, e4⟩ := key
  exact ⟨r, ho, e1, e3, e4⟩

/-- The leftover path with a bias vector returns, and each of the `output_ch` elements it
stores from `out` on is a requantized accumulator. -/
theorem packed_leftover_some (a : ConvArgs) (s : PackedState) (b : Buf)
    (hb : a.bias = some b) (h4 : a.input_ch % 4 = 0) :
    ∃ r, packed_leftover a s = some r ∧ r.out = s.out + a.output_ch ∧
      (∀ c, c < a.output_ch → r.output (s.out + c)
        = requantize a
            (leftover_dot a (pack_last_column a s.runtime_buf).buf (b c) (c * a.input_ch)).sum
            c) ∧
      (∀ i, i < s.out ∨ s.out + a.output_ch ≤ i → r.output i = s.output i) := by
  obtain ⟨l, hl, e1, e3, e4⟩ := leftover_channels_some a
    (pack_last_column a s.runtime_buf).buf ⟨0, s.out, s.output⟩ b hb h4
  dsimp only at e1 e3 e4
  have hr : packed_leftover a s = some ⟨l.out, l.output,
      (pack_last_column a s.runtime_buf).buf⟩ := by
    unfold packed_leftover
    simp only [hl]
  refine ⟨_, hr, e1, ?_, e4⟩
  intro c hc
  have := e3 c hc
  simp only [Nat.zero_add] at this
  exact this


/-! ## Claims on the clamp, the bias and the written elements -/

/-- C7 (as stated, refuted): the reference strategy returns `STATE_SUCCESS` and stores an
element outside `[out_activation_min, out_activation_max]` both when the bounds are in the
wrong order (`min = 10`, `max = 5`: the element is `5 < 10`) and when a bound is not an
`int8_t` value (`min = 0`, `max = 200`: the clamped `154` narrows to `-102 < 0`). -/
theorem clamp_violated_for_some_bounds :
    ((reference invertedClampArgs filled77).1 = STATE_SUCCESS ∧
      (reference invertedClampArgs filled77).2 0 = 5 ∧
      ¬ (invertedClampArgs.out_activation_min ≤ (reference invertedClampArgs filled77).2 0)) ∧
    ((reference wideClampArgs filled77).1 = STATE_SUCCESS ∧
      (reference wideClampArgs filled77).2 0 = -102 ∧
      ¬ (wideClampArgs.out_activation_min ≤ (reference wideClampArgs filled77).2 0)) := by
  decide

/-- C7 (amended): when `-128 <= out_activation_min <= out_activation_max <= 127`, for every
call with `input_ch` divisible by 4 (and a pixel count that fits `int32_t`) every element
the reference, reordered and unrolled strategies write, and every element the leftover path
of the packed strategy writes, lies in `[out_activation_min, out_activation_max]`. -/
theorem written_elements_within_clamp (a : ConvArgs) (output : Buf)
    (h4 : a.input_ch % 4 = 0) (hN : a.output_x * a.output_y < 2147483648)
    (hlo : -128 ≤ a.out_activation_min) (hle : a.out_activation_min ≤ a.out_activation_max)
    (hhi : a.out_activation_max ≤ 127) :
    (∀ p c, p < a.output_x * a.output_y → c < a.output_ch →
      (a.out_activation_min ≤ (reference a output).2 (p * a.output_ch + c) ∧
        (reference a output).2 (p * a.output_ch + c) ≤ a.out_activation_max) ∧
      (a.out_activation_min ≤ (reordered a output).2 (p * a.output_ch + c) ∧
        (reordered a output).2 (p * a.output_ch + c) ≤ a.out_activation_max) ∧
      (c < a.output_ch / 2 * 2 →
        a.out_activation_min ≤ (unrolled a output).2 (p * a.output_ch + c) ∧
        (unrolled a output).2 (p * a.output_ch + c) ≤ a.out_activation_max)) ∧
    (∀ s r, packed_leftover a s = some r → ∀ c, c < a.output_ch →
      a.out_activation_min ≤ r.output (s.out + c) ∧
      r.output (s.out + c) ≤ a.out_activation_max) := by
  have hg := guard_passes h4
  constructor
  · intro p c hp hc
    refine ⟨?_, ?_, fun hc2 => ?_⟩
    · rw [(reference_fills a output hg).1 p c hc (by rw [Nat.mul_comm]; exact hp)]
      exact conv_value_range a _ c hlo hle hhi
    · rw [(reordered_fills a output hg hN).1 p c hc hp]
      exact conv_value_range a _ c hlo hle hhi
    · rw [(unrolled_fills a output hg hN).1 p c hc ⟨hp, hc2⟩]
      exact conv_value_range a _ c hlo hle hhi
  · intro s r hr c hc
    cases hb : a.bias with
    | none =>
      have hnone : packed_leftover a s = none := by
        unfold packed_leftover
        simp only [leftover_channels_none a _ _ hb (by omega)]
      rw [hnone] at hr
      exact absurd hr (by simp)
    | some b =>
      obtain ⟨r', hr', _, e3, _⟩ := packed_leftover_some a s b hb h4
      rw [hr'] at hr
      cases hr
      rw [e3 c hc]
      exact requantize_range a _ c hlo hle hhi

theorem written_elements_within_clamp_witness :
    (sampleArgs.input_ch % 4 = 0 ∧ sampleArgs.output_x * sampleArgs.output_y < 2147483648 ∧
      -128 ≤ sampleArgs.out_activation_min ∧
      sampleArgs.out_activation_min ≤ sampleArgs.out_activation_max ∧
      sampleArgs.out_activation_max ≤ 127) ∧
    (sampleArgs.out_activation_min ≤ (reordered sampleArgs filled77).2 (2 * 4 + 1) ∧
      (reordered sampleArgs filled77).2 (2 * 4 + 1) ≤ sampleArgs.out_activation_max) :=
  ⟨⟨by decide, by decide, by decide, by decide, by decide⟩,
   ((written_elements_within_clamp sampleArgs filled77 (by decide) (by decide) (by decide)
     (by decide) (by decide)).1 2 1 (by decide) (by decide)).2.1⟩

/-- C8 (failing input): on a 1x1 image (`num_elements = 1`, so only the leftover path runs)
with `bias = NULL`, the packed strategy reads `bias[0]` through the null pointer, for every
inner kernel, while the reference strategy returns `STATE_SUCCESS`; with a bias vector of
zeros the same packed call returns `STATE_SUCCESS` and stores the reference value. -/
theorem packed_null_bias_reads_null (mm : MatMultKernel) :
    packed mm nullBiasArgs filled77 zeroBuf = none ∧
    (reference nullBiasArgs filled77).1 = STATE_SUCCESS ∧
    (packed mm zeroBiasArgs filled77 zeroBuf).map (fun r => (r.1, r.2.1 0))
      = some (STATE_SUCCESS, (reference nullBiasArgs filled77).2 0) := by
  refine ⟨rfl, rfl, ?_⟩
  have h : (reference nullBiasArgs filled77).2 0 = 9 := by decide
  rw [h]
  rfl

/-- In the three scalar strategies a null `bias` and a bias vector of `output_ch` zeros give
the same status and output buffer. -/
theorem scalar_bias_absent_eq_zeros (a : ConvArgs) (output z : Buf)
    (h4 : a.input_ch % 4 = 0) (hN : a.output_x * a.output_y < 2147483648)
    (hb : a.bias = none) (hz : ∀ c, c < a.output_ch → z c = 0) :
    reference { a with bias := some z } output = reference a output ∧
    reordered { a with bias := some z } output = reordered a output ∧
    unrolled { a with bias := some z } output = unrolled a output := by
  have hg := guard_passes h4
  have hv : ∀ pix c, c < a.output_ch →
      conv_value { a with bias := some z } pix c = conv_value a pix c := by
    intro pix c hc
    unfold conv_value
    rw [hb]
    show requantize a (wrap32 (dotN a (pix * a.input_ch) (c * a.input_ch) a.input_ch + z c)) c
      = requantize a (dotN a (pix * a.input_ch) (c * a.input_ch) a.input_ch) c
    rw [hz c hc, add_zero, wrap32_of_range _ (dotN_range _ _ _ _).1 (dotN_range _ _ _ _).2]
  have hw : ∀ p c, c < a.output_ch →
      reference_value { a with bias := some z } p c = reference_value a p c :=
    fun p c hc => hv ((p / a.output_x) * a.input_x + p % a.output_x) c hc
  have hg' : guard_fails ({ a with bias := some z } : ConvArgs).input_ch = false := hg
  have r1 : Fills a.output_ch (reference_value { a with bias := some z })
      (fun p _ => p < a.output_y * a.output_x) output
      (reference { a with bias := some z } output).2 :=
    reference_fills { a with bias := some z } output hg'
  have r2 : Fills a.output_ch (conv_value { a with bias := some z })
      (fun p _ => p < a.output_x * a.output_y) output
      (reordered { a with bias := some z } output).2 :=
    reordered_fills { a with bias := some z } output hg' hN
  have r3 : Fills a.output_ch (conv_value { a with bias := some z })
      (fun p c => p < a.output_x * a.output_y ∧ c < a.output_ch / 2 * 2) output
      (unrolled { a with bias := some z } output).2 :=
    unrolled_fills { a with bias := some z } output hg' hN
  refine ⟨Prod.ext ?_ ?_, Prod.ext ?_ ?_, Prod.ext ?_ ?_⟩
  · exact (reference_status { a with bias := some z } output hg').trans
      (reference_status a output hg).symm
  · exact Fills.unique (r1.congr_val (fun p c hc _ => hw p c hc)) (reference_fills a output hg)
  · exact (reordered_status { a with bias := some z } output hg').trans
      (reordered_status a output hg).symm
  · exact Fills.unique (r2.congr_val (fun p c hc _ => hv p c hc))
      (reordered_fills a output hg hN)
  · exact (unrolled_status { a with bias := some z } output hg').trans
      (unrolled_status a output hg).symm
  · exact Fills.unique (r3.congr_val (fun p c hc _ => hv p c hc))
      (unrolled_fills a output hg hN)


theorem conv_value_eq_quantized (a : ConvArgs) (pix c : Nat) :
    conv_value a pix c = quantized_result a pix c := requantize_acc a pix c

theorem Fills.outside {och n : Nat} {v : Nat → Nat → Int} {W : Nat → Nat → Prop}
    {base buf : Buf} (h : Fills och v W base buf) (hW : ∀ p c, W p c → p < n)
    (i : Nat) (hi : n * och ≤ i) : buf i = base i :=
  h.2 i (fun p c hc hw e => by
    have := pixel_index_lt hc (hW p c hw)
    omega)

/-- C9 (as stated, refuted): with the odd `output_ch = 3` the unrolled strategy returns
`STATE_SUCCESS` but the element at offset 2 (pixel 0, channel 2, inside the
`output_x * output_y * output_ch = 9` elements of the tensor) keeps whatever the buffer held
before the call (`77`, or `55`), whereas its quantized convolution result is `9`. -/
theorem unrolled_odd_channels_skips_element :
    (unrolled oddChannelArgs filled77).1 = STATE_SUCCESS ∧
    2 < oddChannelArgs.output_x * oddChannelArgs.output_y * oddChannelArgs.output_ch ∧
    (unrolled oddChannelArgs filled77).2 2 = 77 ∧
    (unrolled oddChannelArgs filled55).2 2 = 55 ∧
    quantized_result oddChannelArgs 0 2 = 9 := by
  decide

/-- C9 (amended): for every call that returns `STATE_SUCCESS` (with a pixel count that fits
`int32_t`), the reference and the reordered strategy, for every `output_ch`, and the
unrolled strategy, for every even `output_ch`, store in each of the
`output_x * output_y * output_ch` elements of the output buffer its quantized convolution
result, and leave every offset from `output_x * output_y * output_ch` on as it was. -/
theorem scalar_outputs_fully_written (a : ConvArgs) (output : Buf)
    (h4 : a.input_ch % 4 = 0) (hN : a.output_x * a.output_y < 2147483648) :
    ((reference a output).1 = STATE_SUCCESS ∧
      (∀ out_y out_x c, out_y < a.output_y → out_x < a.output_x → c < a.output_ch →
        (reference a output).2 ((out_y * a.output_x + out_x) * a.output_ch + c)
          = quantized_result a (out_y * a.input_x + out_x) c) ∧
      (∀ i, a.output_x * a.output_y * a.output_ch ≤ i → (reference a output).2 i = output i)) ∧
    ((reordered a output).1 = STATE_SUCCESS ∧
      (∀ p c, p < a.output_x * a.output_y → c < a.output_ch →
        (reordered a output).2 (p * a.output_ch + c) = quantized_result a p c) ∧
      (∀ i, a.output_x * a.output_y * a.output_ch ≤ i → (reordered a output).2 i = output i)) ∧
    (a.output_ch % 2 = 0 →
      (unrolled a output).1 = STATE_SUCCESS ∧
      (∀ p c, p < a.output_x * a.output_y → c < a.output_ch →
        (unrolled a output).2 (p * a.output_ch + c) = quantized_result a p c) ∧
      (∀ i, a.output_x * a.output_y * a.output_ch ≤ i → (unrolled a output).2 i = output i)) := by
  have hg := guard_passes h4
  have href := reference_fills a output hg
  have hreo := reordered_fills a output hg hN
  have hunr := unrolled_fills a output hg hN
  refine ⟨⟨reference_status a output hg, ?_, ?_⟩, ⟨reordered_status a output hg, ?_, ?_⟩,
    fun heven => ⟨unrolled_status a output hg, ?_, ?_⟩⟩
  · intro out_y out_x c hy hx hc
    rw [href.1 _ c hc (reference_pixel_lt hy hx)]
    unfold reference_value
    rw [(div_mod_pixel hx).1, (div_mod_pixel hx).2, conv_value_eq_quantized]
  · intro i hi
    exact href.outside (n := a.output_x * a.output_y)
      (fun p c hw => by rw [Nat.mul_comm]; exact hw) i hi
  · intro p c hp hc
    rw [hreo.1 p c hc hp, conv_value_eq_quantized]
  · intro i hi
    exact hreo.outside (n := a.output_x * a.output_y) (fun p c hw => hw) i hi
  · intro p c hp hc
    rw [hunr.1 p c hc ⟨hp, by omega⟩, conv_value_eq_quantized]
  · intro i hi
    exact hunr.outside (n := a.output_x * a.output_y) (fun p c hw => hw.1) i hi

theorem scalar_outputs_fully_written_witness :
    (sampleArgs.input_ch % 4 = 0 ∧ sampleArgs.output_x * sampleArgs.output_y < 2147483648 ∧
      sampleArgs.output_ch % 2 = 0) ∧
    ((unrolled sampleArgs filled77).2 (2 * sampleArgs.output_ch + 3)
        = quantized_result sampleArgs 2 3 ∧
      (unrolled sampleArgs filled77).2 12 = filled77 12) :=
  ⟨⟨by decide, by decide, by decide⟩,
   ⟨((scalar_outputs_fully_written sampleArgs filled77 (by decide) (by decide)).2.2
      (by decide)).2.1 2 3 (by decide) (by decide),
    ((scalar_outputs_fully_written sampleArgs filled77 (by decide) (by decide)).2.2
      (by decide)).2.2 12 (by decide)⟩⟩


/-! ## Packed strategy: the leftover path against the reference -/

theorem pack_column_spec (input : Buf) (off16 : Int) (src n : Nat) (rb : Buf) :
    ∀ g, g < n →
      (forLoop n (fun _ p => q7_q15_offset_reordered_ele input off16 p) ⟨src, 0, rb⟩).buf (4 * g)
        = wrap16 (input (src + 4 * g) + off16) ∧
      (forLoop n (fun _ p => q7_q15_offset_reordered_ele input off16 p) ⟨src, 0, rb⟩).buf
          (4 * g + 1) = wrap16 (input (src + (4 * g + 2)) + off16) ∧
      (forLoop n (fun _ p => q7_q15_offset_reordered_ele input off16 p) ⟨src, 0, rb⟩).buf
          (4 * g + 2) = wrap16 (input (src + (4 * g + 1)) + off16) ∧
      (forLoop n (fun _ p => q7_q15_offset_reordered_ele input off16 p) ⟨src, 0, rb⟩).buf
          (4 * g + 3) = wrap16 (input (src + (4 * g + 3)) + off16) := by
  have key := forLoop_inv
    (fun i (p : PackState) => p.src = src + 4 * i ∧ p.dst = 4 * i ∧
      ∀ g, g < i →
        p.buf (4 * g) = wrap16 (input (src + 4 * g) + off16) ∧
        p.buf (4 * g + 1) = wrap16 (input (src + (4 * g + 2)) + off16) ∧
        p.buf (4 * g + 2) = wrap16 (input (src + (4 * g + 1)) + off16) ∧
        p.buf (4 * g + 3) = wrap16 (input (src + (4 * g + 3)) + off16))
    n (fun _ p => q7_q15_offset_reordered_ele input off16 p) ⟨src, 0, rb⟩
    ⟨rfl, rfl, fun g hg => by omega⟩
    (by
      intro i p _ ⟨e1, e2, e3⟩
      obtain ⟨ps, pd, pb⟩ := p
      dsimp only at e1 e2 e3
      subst e1 e2
      unfold q7_q15_offset_reordered_ele
      dsimp only
      refine ⟨by omega, by omega, fun g hg => ?_⟩
      by_cases hgi : g = i
      · subst hgi
        refine ⟨?_, ?_, ?_, ?_⟩
        · rw [store_other _ _ _ _ (by omega), store_other _ _ _ _ (by omega),
            store_other _ _ _ _ (by omega), store_same]
        · rw [store_other _ _ _ _ (by omega), store_other _ _ _ _ (by omega), store_same,
            Nat.add_assoc]
        · rw [store_other _ _ _ _ (by omega), store_same, Nat.add_assoc]
        · rw [store_same, Nat.add_assoc]
      · have hlt : g < i := by omega
        obtain ⟨f0, f1, f2, f3⟩ := e3 g hlt
        refine ⟨?_, ?_, ?_, ?_⟩
        · rw [store_other _ _ _ _ (by omega), store_other _ _ _ _ (by omega),
            store_other _ _ _ _ (by omega), store_other _ _ _ _ (by omega), f0]
        · rw [store_other _ _ _ _ (by omega), store_other _ _ _ _ (by omega),
            store_other _ _ _ _ (by omega), store_other _ _ _ _ (by omega), f1]
        · rw [store_other _ _ _ _ (by omega), store_other _ _ _ _ (by omega),
            store_other _ _ _ _ (by omega), store_other _ _ _ _ (by omega), f2]
        · rw [store_other _ _ _ _ (by omega), store_other _ _ _ _ (by omega),
            store_other _ _ _ _ (by omega), store_other _ _ _ _ (by omega), f3])
  exact key.2.2

theorem sum_upto_four (n : Nat) (f : Nat → Int) :
    sum_upto (4 * (n + 1)) f
      = sum_upto (4 * n) f + f (4 * n) + f (4 * n + 1) + f (4 * n + 2) + f (4 * n + 3) := rfl

/-- The accumulator of the leftover path over a packed column: the start value plus the sum
of weight times packed activation, in 32-bit arithmetic. -/
theorem leftover_dot_sum (a : ConvArgs) (buf : Buf) (sum0 : Int) (ker : Nat) (w : Nat → Int)
    (hbuf : ∀ g, g < a.input_ch / 4 →
      buf (4 * g) = w (4 * g) ∧ buf (4 * g + 1) = w (4 * g + 2) ∧
      buf (4 * g + 2) = w (4 * g + 1) ∧ buf (4 * g + 3) = w (4 * g + 3))
    (h0 : -2147483648 ≤ sum0 ∧ sum0 ≤ 2147483647) :
    (leftover_dot a buf sum0 ker).sum
      = wrap32 (sum0 + sum_upto (4 * (a.input_ch / 4)) (fun i => a.kernel (ker + i) * w i)) := by
  unfold leftover_dot
  rw [leftover_rounds]
  have key := forLoop_inv
    (fun i (c : ColState) => c.ker_a = ker + 4 * i ∧ c.ip_as_col = 4 * i ∧
      (-2147483648 ≤ c.sum ∧ c.sum ≤ 2147483647) ∧
      c.sum ≡ sum0 + sum_upto (4 * i) (fun i => a.kernel (ker + i) * w i) [ZMOD 4294967296])
    (a.input_ch / 4)
    (fun _ c =>
      let ker := read_and_pad_reordered a.kernel c.ker_a
      let in_b1 := arm_nn_read_q15x2 buf c.ip_as_col
      let sum := SMLAD ker.1 in_b1 c.sum
      let in_b2 := arm_nn_read_q15x2 buf (c.ip_as_col + 2)
      let sum := SMLAD ker.2 in_b2 sum
      { sum := sum, ker_a := c.ker_a + 4, ip_as_col := c.ip_as_col + 4 })
    ⟨sum0, ker, 0⟩
    ⟨rfl, rfl, h0, by simp [sum_upto, forLoop]⟩
    (by
      intro i c hi ⟨e1, e2, _, e4⟩
      obtain ⟨cs, ck, ci⟩ := c
      dsimp only at e1 e2 e4
      subst e1 e2
      obtain ⟨f0, f1, f2, f3⟩ := hbuf i hi
      refine ⟨by dsimp only; omega, by dsimp only; omega, wrap32_range _, ?_⟩
      rw [sum_upto_four]
      dsimp only [SMLAD, read_and_pad_reordered, arm_nn_read_q15x2]
      rw [f0, f1, Nat.add_assoc (4 * i) 2 1, f3, f2]
      simp only [Nat.add_assoc]
      generalize a.kernel (ker + 4 * i) * w (4 * i) = t0
      generalize a.kernel (ker + (4 * i + 1)) * w (4 * i + 1) = t1
      generalize a.kernel (ker + (4 * i + 2)) * w (4 * i + 2) = t2
      generalize a.kernel (ker + (4 * i + 3)) * w (4 * i + 3) = t3
      generalize sum_upto (4 * i) (fun i => a.kernel (ker + i) * w i) = T at e4 ⊢
      unfold Int.ModEq at e4 ⊢
      unfold wrap32
      omega)
  obtain ⟨_, _, hr, hm⟩ := key
  dsimp only at hr hm
  rw [← wrap32_congr hm]
  exact (wrap32_of_range _ hr.1 hr.2).symm


theorem last_column_src (a : ConvArgs) (hN : a.output_x * a.output_y < 2147483648)
    (hpos : 0 < a.output_x * a.output_y) :
    ((num_elements a - 1) * (a.input_ch : Int)).toNat
      = (a.output_x * a.output_y - 1) * a.input_ch := by
  rw [num_elements_eq a hN]
  have h : ((a.output_x * a.output_y : Nat) : Int) - 1
      = ((a.output_x * a.output_y - 1 : Nat) : Int) := by omega
  rw [h, ← Int.natCast_mul, Int.toNat_natCast]

/-- C10 (as stated, refuted): on a 1x1 image (an odd pixel count) with `input_ch = 4`, a bias
vector and `input_offset = 65539`, which the packed strategy narrows to the 16-bit value `3`,
the leftover path stores `9` for channel 0 of the last position, whereas the reference
strategy stores `-128`. -/
theorem packed_leftover_wide_offset_differs :
    wideOffsetArgs.input_ch % 4 = 0 ∧
    wideOffsetArgs.output_x * wideOffsetArgs.output_y % 2 = 1 ∧
    wideOffsetArgs.bias.isSome = true ∧
    inoff16 wideOffsetArgs = 3 ∧
    (packed_leftover wideOffsetArgs ⟨0, filled77, zeroBuf⟩).map (fun r => r.output 0) = some 9 ∧
    (reference wideOffsetArgs filled77).2 0 = -128 := by
  decide

/-- C10 (amended): for every call of the packed strategy with `input_ch` divisible by 4,
`input_x = output_x`, an odd pixel count (that fits `int32_t`), a bias vector of `int32_t`
values, `int8_t` activations and an `input_offset` in `[-32640, 32640]` (so that
`activation + input_offset` fits 16 bits), the leftover path returns and the `output_ch`
values it stores from `out` on equal the values the reference strategy stores for the last
output position. -/
theorem packed_leftover_eq_reference (a : ConvArgs) (s : PackedState) (output b : Buf)
    (h4 : a.input_ch % 4 = 0) (hx : a.input_x = a.output_x)
    (hN : a.output_x * a.output_y < 2147483648) (hodd : a.output_x * a.output_y % 2 = 1)
    (hb : a.bias = some b) (hbr : ∀ c, -2147483648 ≤ b c ∧ b c ≤ 2147483647)
    (hin : ∀ i, -128 ≤ a.input i ∧ a.input i ≤ 127)
    (hoff : -32640 ≤ a.input_offset ∧ a.input_offset ≤ 32640) :
    ∃ r, packed_leftover a s = some r ∧ r.out = s.out + a.output_ch ∧
      ∀ c, c < a.output_ch →
        r.output (s.out + c)
          = (reference a output).2 ((a.output_x * a.output_y - 1) * a.output_ch + c) := by
  have hg := guard_passes h4
  obtain ⟨r, hr, hout, e3, _⟩ := packed_leftover_some a s b hb h4
  refine ⟨r, hr, hout, fun c hc => ?_⟩
  rw [e3 c hc, (reference_fills_linear a output hg hx).1 _ c hc (by omega)]
  unfold conv_value
  rw [add_bias_dotN_eq]
  have hsrc := last_column_src a hN (by omega)
  have hcol := pack_column_spec a.input (inoff16 a)
    ((a.output_x * a.output_y - 1) * a.input_ch) (a.input_ch / 4) s.runtime_buf
  have hshift : a.input_ch >>> 2 = a.input_ch / 4 := by
    simp [Nat.shiftRight_eq_div_pow]
  have hsum := leftover_dot_sum a (pack_last_column a s.runtime_buf).buf (b c)
    (c * a.input_ch)
    (fun i => wrap16 (a.input ((a.output_x * a.output_y - 1) * a.input_ch + i) + inoff16 a))
    (by
      intro g hg'
      unfold pack_last_column
      rw [hsrc, hshift]
      exact hcol g hg')
    (hbr c)
  rw [hsum]
  have hfull : 4 * (a.input_ch / 4) = a.input_ch := by omega
  rw [hfull]
  have hoff16 : inoff16 a = a.input_offset := by
    unfold inoff16
    exact wrap16_of_range _ (by omega) (by omega)
  have hfun : (fun i => a.kernel (c * a.input_ch + i) *
        wrap16 (a.input ((a.output_x * a.output_y - 1) * a.input_ch + i) + inoff16 a))
      = (fun i => (a.input ((a.output_x * a.output_y - 1) * a.input_ch + i) + a.input_offset)
          * a.kernel (c * a.input_ch + i)) := by
    funext i
    have hi := hin ((a.output_x * a.output_y - 1) * a.input_ch + i)
    rw [hoff16, wrap16_of_range _ (by omega) (by omega), mul_comm]
  rw [hfun]
  unfold acc_spec
  rw [hb]
  dsimp only
  rw [add_comm]

theorem packed_leftover_eq_reference_witness :
    (sampleArgs.input_ch % 4 = 0 ∧ sampleArgs.input_x = sampleArgs.output_x ∧
      sampleArgs.output_x * sampleArgs.output_y < 2147483648 ∧
      sampleArgs.output_x * sampleArgs.output_y % 2 = 1 ∧
      sampleArgs.bias = some (fun c => ((c % 4 : Nat) : Int)) ∧
      (∀ c : Nat, (-2147483648 : Int) ≤ ((c % 4 : Nat) : Int) ∧
        ((c % 4 : Nat) : Int) ≤ 2147483647) ∧
      (∀ i, -128 ≤ sampleArgs.input i ∧ sampleArgs.input i ≤ 127) ∧
      (-32640 ≤ sampleArgs.input_offset ∧ sampleArgs.input_offset ≤ 32640)) ∧
    ∃ r, packed_leftover sampleArgs ⟨8, filled77, zeroBuf⟩ = some r ∧ r.out = 8 + 4 ∧
      ∀ c, c < 4 → r.output (8 + c) = (reference sampleArgs filled77).2 ((3 * 1 - 1) * 4 + c) :=
  have hbr : ∀ c : Nat, (-2147483648 : Int) ≤ ((c % 4 : Nat) : Int) ∧
      ((c % 4 : Nat) : Int) ≤ 2147483647 := fun c => by omega
  have hin : ∀ i, -128 ≤ sampleArgs.input i ∧ sampleArgs.input i ≤ 127 := fun i => by
    show -128 ≤ ((i % 11 : Nat) : Int) - 5 ∧ ((i % 11 : Nat) : Int) - 5 ≤ 127
    omega
  ⟨⟨by decide, by decide, by decide, by decide, rfl, hbr, hin, by decide⟩,
   packed_leftover_eq_reference sampleArgs ⟨8, filled77, zeroBuf⟩ filled77
     (fun c => ((c % 4 : Nat) : Int)) (by decide) (by decide) (by decide) (by decide) rfl
     hbr hin (by decide)⟩


/-! ## The two scenarios of the specification -/

/-- C12: with the 2x2x4 activation tensor of constant value 10, identity-like 4x4 weights,
`input_offset = 0`, `out_offset = 0`, scales `1.0`, no bias and clamp `[-128, 127]`, the
reference, reordered and unrolled strategies return `STATE_SUCCESS` and every one of the 16
output elements equals 10 (the buffer held 77 before the call). -/
theorem identity_scenario_outputs_ten :
    ((reference identityArgs filled77).1 = STATE_SUCCESS ∧
      (List.range 16).map (reference identityArgs filled77).2 = List.replicate 16 10) ∧
    ((reordered identityArgs filled77).1 = STATE_SUCCESS ∧
      (List.range 16).map (reordered identityArgs filled77).2 = List.replicate 16 10) ∧
    ((unrolled identityArgs filled77).1 = STATE_SUCCESS ∧
      (List.range 16).map (unrolled identityArgs filled77).2 = List.replicate 16 10) := by
  decide

/-- C13: with the same tensor and weights, `input_offset = 0`, no bias, clamp `[-128, 127]`,
scales `0.5` and `out_offset = 5`, the reference, reordered and unrolled strategies return
`STATE_SUCCESS` and every one of the 16 output elements equals 10 (`10 * 0.5 = 5`, plus 5). -/
theorem half_scale_scenario_outputs_ten :
    ((reference halfScaleArgs filled77).1 = STATE_SUCCESS ∧
      (List.range 16).map (reference halfScaleArgs filled77).2 = List.replicate 16 10) ∧
    ((reordered halfScaleArgs filled77).1 = STATE_SUCCESS ∧
      (List.range 16).map (reordered halfScaleArgs filled77).2 = List.replicate 16 10) ∧
    ((unrolled halfScaleArgs filled77).1 = STATE_SUCCESS ∧
      (List.range 16).map (unrolled halfScaleArgs filled77).2 = List.replicate 16 10) ∧
    fpreq 10 half = 5 := by
  decide


/-! ## Range of the accumulator -/

theorem term_bound (k v : Int) (hk : -128 ≤ k ∧ k ≤ 127) (hv : -256 ≤ v ∧ v ≤ 255) :
    -32768 ≤ k * v ∧ k * v ≤ 32768 := by
  obtain ⟨hk1, hk2⟩ := hk
  obtain ⟨hv1, hv2⟩ := hv
  constructor
  · nlinarith [mul_nonneg (sub_nonneg.2 hk1) (sub_nonneg.2 hv2),
      mul_nonneg (sub_nonneg.2 hk2) (sub_nonneg.2 hv1)]
  · nlinarith [mul_nonneg (sub_nonneg.2 hk1) (sub_nonneg.2 hv1),
      mul_nonneg (sub_nonneg.2 hk2) (sub_nonneg.2 hv2)]

theorem sum_upto_succ (n : Nat) (f : Nat → Int) : sum_upto (n + 1) f = sum_upto n f + f n := rfl

theorem exact_partial_sum_bound (a : ConvArgs) (src ker n : Nat)
    (hin : ∀ i, -128 ≤ a.input i ∧ a.input i ≤ 127)
    (hk : ∀ i, -128 ≤ a.kernel i ∧ a.kernel i ≤ 127)
    (hoff : -128 ≤ a.input_offset ∧ a.input_offset ≤ 128) :
    -((n : Int) * 32768)
        ≤ sum_upto n (fun i => a.kernel (ker + i) * (a.input (src + i) + a.input_offset)) ∧
      sum_upto n (fun i => a.kernel (ker + i) * (a.input (src + i) + a.input_offset))
        ≤ (n : Int) * 32768 := by
  induction n with
  | zero => simp [sum_upto, forLoop]
  | succ n ih =>
    rw [sum_upto_succ]
    have hi := hin (src + n)
    have ht := term_bound (a.kernel (ker + n)) (a.input (src + n) + a.input_offset)
      (hk (ker + n)) ⟨by omega, by omega⟩
    push_cast
    constructor <;> linarith [ih.1, ih.2, ht.1, ht.2]

theorem dotN_exact (a : ConvArgs) (src ker n : Nat) (hn : n ≤ 65532)
    (hin : ∀ i, -128 ≤ a.input i ∧ a.input i ≤ 127)
    (hk : ∀ i, -128 ≤ a.kernel i ∧ a.kernel i ≤ 127)
    (hoff : -128 ≤ a.input_offset ∧ a.input_offset ≤ 128) :
    dotN a src ker n
      = sum_upto n (fun i => a.kernel (ker + i) * (a.input (src + i) + a.input_offset)) := by
  induction n with
  | zero => simp [dotN, sum_upto, forLoop]
  | succ n ih =>
    rw [dotN_succ, sum_upto_succ, ih (by omega)]
    have hi := hin (src + n)
    have ht := term_bound (a.kernel (ker + n)) (a.input (src + n) + a.input_offset)
      (hk (ker + n)) ⟨by omega, by omega⟩
    have hb := exact_partial_sum_bound a src ker n hin hk hoff
    have hn' : (n : Int) ≤ 65531 := by omega
    unfold mac
    rw [wrap32_of_range (a.input (src + n) + a.input_offset) (by omega) (by omega),
      wrap32_of_range (a.kernel (ker + n) * (a.input (src + n) + a.input_offset))
        (by omega) (by omega)]
    exact wrap32_of_range _ (by linarith [hb.1, ht.1]) (by linarith [hb.2, ht.2])

/-- C17: for every `input_ch` that passes the guard (a 16-bit unsigned multiple of 4, so at
most 65532), `int8_t` activations and weights and an `input_offset` in `[-128, 128]`, every
partial sum (`n <= input_ch` terms) of the accumulation of `weight * (activation +
input_offset)` has absolute value at most `65532 * 128 * 256 = 2^31 - 131072`, and the
32-bit accumulator of the code holds exactly that partial sum: it never wraps; in particular
the accumulator of the reference strategy before the bias is the exact sum. -/
theorem accumulator_never_overflows (a : ConvArgs) (src ker n : Nat)
    (h4 : a.input_ch % 4 = 0) (h16 : a.input_ch < 65536) (hn : n ≤ a.input_ch)
    (hin : ∀ i, -128 ≤ a.input i ∧ a.input i ≤ 127)
    (hk : ∀ i, -128 ≤ a.kernel i ∧ a.kernel i ≤ 127)
    (hoff : -128 ≤ a.input_offset ∧ a.input_offset ≤ 128) :
    a.input_ch ≤ 65532 ∧
    (65532 * 128 * 256 : Int) = 2 ^ 31 - 131072 ∧
    |sum_upto n (fun i => a.kernel (ker + i) * (a.input (src + i) + a.input_offset))|
      ≤ 65532 * 128 * 256 ∧
    dotN a src ker n
      = sum_upto n (fun i => a.kernel (ker + i) * (a.input (src + i) + a.input_offset)) ∧
    (∀ out_y out_x c,
      reference_sum a out_y out_x c
        = sum_upto a.input_ch (fun i =>
            a.kernel (c * a.input_ch + i)
              * (a.input ((out_y * a.input_x + out_x) * a.input_ch + i) + a.input_offset)) ∧
      |reference_sum a out_y out_x c| ≤ 65532 * 128 * 256) := by
  have hch : a.input_ch ≤ 65532 := by omega
  have hb := exact_partial_sum_bound a src ker n hin hk hoff
  have hn' : (n : Int) ≤ 65532 := by omega
  refine ⟨hch, by norm_num, ?_, dotN_exact a src ker n (by omega) hin hk hoff, ?_⟩
  · rw [abs_le]
    constructor <;> linarith [hb.1, hb.2]
  · intro out_y out_x c
    have he := dotN_exact a ((out_y * a.input_x + out_x) * a.input_ch) (c * a.input_ch)
      a.input_ch hch hin hk hoff
    have hb' := exact_partial_sum_bound a ((out_y * a.input_x + out_x) * a.input_ch)
      (c * a.input_ch) a.input_ch hin hk hoff
    have hc' : (a.input_ch : Int) ≤ 65532 := by omega
    rw [reference_sum_eq, he]
    refine ⟨rfl, ?_⟩
    rw [abs_le]
    constructor <;> linarith [hb'.1, hb'.2]


/-! ## Truncation of the scaled accumulator -/

theorem bitlenAux_le (fuel : Nat) : ∀ n k : Nat, n < 2 ^ k → bitlenAux fuel n ≤ k := by
  induction fuel with
  | zero => intro n k _; exact Nat.zero_le _
  | succ fuel ih =>
    intro n k h
    unfold bitlenAux
    by_cases hn : n = 0
    · rw [if_pos hn]; exact Nat.zero_le _
    · rw [if_neg hn]
      cases k with
      | zero => simp at h; exact absurd h hn
      | succ k =>
        have h2 : n / 2 < 2 ^ k := by
          rw [pow_succ] at h
          omega
        have := ih (n / 2) k h2
        omega

theorem roundNearestEven_zero (n : Nat) : roundNearestEven n 0 = n := by
  simp [roundNearestEven, Nat.mod_one]

theorem F32.round_small (m e : Int) (h : m.natAbs < 2 ^ 24) : F32.round m e = ⟨m, e⟩ := by
  have hk : bitlen m.natAbs - 24 = 0 := by
    have := bitlenAux_le m.natAbs m.natAbs 24 h
    unfold bitlen
    omega
  unfold F32.round
  simp only [hk, roundNearestEven_zero, Int.sign_mul_natAbs]
  simp

theorem tdiv_two_bounds (s : Int) :
    -(s.natAbs : Int) ≤ Int.tdiv s 2 ∧ Int.tdiv s 2 ≤ s.natAbs := by
  rcases Int.le_total 0 s with h | h
  · rw [Int.tdiv_eq_ediv h (by norm_num)]; omega
  · have h2 : Int.tdiv s 2 = -((-s) / 2) := by
      have : s = -(-s) := by omega
      rw [this, Int.neg_tdiv, Int.tdiv_eq_ediv (by omega) (by norm_num)]; simp
    rw [h2]; omega

theorem fpreq_half_small (s : Int) (h : s.natAbs < 2 ^ 24) : fpreq s half = Int.tdiv s 2 := by
  unfold fpreq F32.ofInt32 F32.mul
  rw [F32.round_small s 0 h]
  have h1 : (s * half.m).natAbs < 2 ^ 24 := by
    show (s * 1).natAbs < 2 ^ 24
    rw [mul_one]; exact h
  rw [F32.round_small _ _ h1]
  have hb := tdiv_two_bounds s
  have hs : (s.natAbs : Int) < 16777216 := by
    have : s.natAbs < 16777216 := h
    omega
  unfold F32.toInt32
  show (if (if (0 : Int) ≤ 0 + -1 then s * 1 * 2 ^ (0 + -1 : Int).toNat
          else Int.tdiv (s * 1) (2 ^ (-(0 + -1 : Int)).toNat)) < -2147483648 then -2147483648
        else if 2147483647 < (if (0 : Int) ≤ 0 + -1 then s * 1 * 2 ^ (0 + -1 : Int).toNat
          else Int.tdiv (s * 1) (2 ^ (-(0 + -1 : Int)).toNat)) then 2147483647
        else (if (0 : Int) ≤ 0 + -1 then s * 1 * 2 ^ (0 + -1 : Int).toNat
          else Int.tdiv (s * 1) (2 ^ (-(0 + -1 : Int)).toNat))) = Int.tdiv s 2
  have he : (if (0 : Int) ≤ 0 + -1 then s * 1 * 2 ^ (0 + -1 : Int).toNat
      else Int.tdiv (s * 1) (2 ^ (-(0 + -1 : Int)).toNat)) = Int.tdiv s 2 := by
    rw [if_neg (by norm_num), mul_one]
    rfl
  rw [he, if_neg (by omega), if_neg (by omega)]

theorem fpreq_half_exact (s : Int) (h1 : -16777216 ≤ s) (h2 : s ≤ 16777216) :
    fpreq s half = Int.tdiv s 2 := by
  by_cases e1 : s = 16777216
  · subst e1; decide
  · by_cases e2 : s = -16777216
    · subst e2; decide
    · exact fpreq_half_small s (by
        have : s.natAbs < 16777216 := by omega
        exact this)


/-- C14 (as stated, refuted): for the accumulator `s = 33554435 = 2^25 + 3` and the scale
`0.5` the scaled value is `16777218`, not the quotient `16777217` of `s` by 2 rounded toward
zero, because `(float) s` rounds `s` to `33554436`; on the call `bigBiasArgs`, whose
accumulator is that `s`, the reference strategy stores `1` where truncation of `s / 2` would
give `0`. -/
theorem scaled_value_not_quotient_for_large_sum :
    fpreq 33554435 half = 16777218 ∧ Int.tdiv 33554435 2 = 16777217 ∧
    F32.ofInt32 33554435 = ⟨8388609, 2⟩ ∧
    add_bias bigBiasArgs.bias (reference_sum bigBiasArgs 0 0 0) 0 = 33554435 ∧
    (reference bigBiasArgs filled77).1 = STATE_SUCCESS ∧
    (reference bigBiasArgs filled77).2 0 = 1 ∧
    truncated_result bigBiasArgs 0 0 = 0 := by
  decide

theorem quantized_eq_truncated (a : ConvArgs) (pix c : Nat) (hs : a.scales c = half)
    (h1 : -16777216 ≤ wrap32 (acc_spec a pix c)) (h2 : wrap32 (acc_spec a pix c) ≤ 16777216) :
    quantized_result a pix c = truncated_result a pix c := by
  unfold quantized_result truncated_result
  rw [hs, fpreq_half_exact _ h1 h2]

/-- C14 (amended): in every scalar strategy the scaled accumulator is converted by
truncation toward zero: for every accumulator value `s` with `|s| <= 2^24` (the integers single
precision represents exactly) and a scale of `0.5` the scaled value is the integer quotient
of `s` by 2 rounded toward zero (`3` gives `1`, `-3` gives `-1`, `5` gives `2`), and
`out_offset` is added only after this truncation; so every element the reference, reordered
and unrolled strategies store for a channel of scale `0.5` and such an accumulator is
`truncated_result`. -/
theorem scaled_value_truncates_toward_zero (a : ConvArgs) (output : Buf)
    (h4 : a.input_ch % 4 = 0) (hN : a.output_x * a.output_y < 2147483648) :
    (fpreq 3 half = 1 ∧ fpreq (-3) half = -1 ∧ fpreq 5 half = 2) ∧
    (∀ s : Int, -16777216 ≤ s → s ≤ 16777216 → fpreq s half = Int.tdiv s 2) ∧
    (∀ (s : Int) (c : Nat), a.scales c = half → -16777216 ≤ s → s ≤ 16777216 →
      requantize a s c
        = wrap8 (MIN (MAX (wrap32 (Int.tdiv s 2 + a.out_offset)) a.out_activation_min)
            a.out_activation_max)) ∧
    (∀ out_y out_x c, out_y < a.output_y → out_x < a.output_x → c < a.output_ch →
      a.scales c = half →
      -16777216 ≤ wrap32 (acc_spec a (out_y * a.input_x + out_x) c) →
      wrap32 (acc_spec a (out_y * a.input_x + out_x) c) ≤ 16777216 →
      (reference a output).2 ((out_y * a.output_x + out_x) * a.output_ch + c)
        = truncated_result a (out_y * a.input_x + out_x) c) ∧
    (∀ p c, p < a.output_x * a.output_y → c < a.output_ch → a.scales c = half →
      -16777216 ≤ wrap32 (acc_spec a p c) → wrap32 (acc_spec a p c) ≤ 16777216 →
      (reordered a output).2 (p * a.output_ch + c) = truncated_result a p c ∧
      (c < a.output_ch / 2 * 2 →
        (unrolled a output).2 (p * a.output_ch + c) = truncated_result a p c)) := by
  have hg := guard_passes h4
  refine ⟨by decide, fun s h1 h2 => fpreq_half_exact s h1 h2, ?_, ?_, ?_⟩
  · intro s c hs h1 h2
    unfold requantize
    rw [hs, fpreq_half_exact s h1 h2]
  · intro out_y out_x c hy hx hc hs h1 h2
    rw [(reference_fills a output hg).1 _ c hc (reference_pixel_lt hy hx)]
    unfold reference_value
    rw [(div_mod_pixel hx).1, (div_mod_pixel hx).2, conv_value_eq_quantized,
      quantized_eq_truncated a _ c hs h1 h2]
  · intro p c hp hc hs h1 h2
    refine ⟨?_, fun hc2 => ?_⟩
    · rw [(reordered_fills a output hg hN).1 p c hc hp, conv_value_eq_quantized,
        quantized_eq_truncated a _ c hs h1 h2]
    · rw [(unrolled_fills a output hg hN).1 p c hc ⟨hp, hc2⟩, conv_value_eq_quantized,
        quantized_eq_truncated a _ c hs h1 h2]

theorem scaled_value_truncates_toward_zero_witness :
    (halfScaleArgs.input_ch % 4 = 0 ∧
      halfScaleArgs.output_x * halfScaleArgs.output_y < 2147483648) ∧
    ((reordered halfScaleArgs filled77).2 (3 * halfScaleArgs.output_ch + 2)
        = truncated_result halfScaleArgs 3 2 ∧
      truncated_result halfScaleArgs 3 2 = 10) :=
  ⟨⟨by decide, by decide⟩,
   ⟨((scaled_value_truncates_toward_zero halfScaleArgs filled77 (by decide)
      (by decide)).2.2.2.2 3 2 (by decide) (by decide) rfl (by decide) (by decide)).1,
    by decide⟩⟩


/-! ## The clamp and the narrowing -/

theorem clamped_result_range (a : ConvArgs) (pix c : Nat)
    (hle : a.out_activation_min ≤ a.out_activation_max) :
    a.out_activation_min ≤ clamped_result a pix c ∧
      clamped_result a pix c ≤ a.out_activation_max := by
  unfold clamped_result MIN MAX
  split_ifs <;> omega

theorem quantized_eq_clamped (a : ConvArgs) (pix c : Nat)
    (hlo : -128 ≤ a.out_activation_min) (hle : a.out_activation_min ≤ a.out_activation_max)
    (hhi : a.out_activation_max ≤ 127) : quantized_result a pix c = clamped_result a pix c := by
  have h := clamped_result_range a pix c hle
  show wrap8 (clamped_result a pix c) = clamped_result a pix c
  exact wrap8_of_range _ (by omega) (by omega)

/-- C15: if `-128 <= out_activation_min <= out_activation_max <= 127`, then for every call
that returns `STATE_SUCCESS` (with a pixel count that fits `int32_t`) every element the
reference and the reordered strategy store lies in `[out_activation_min,
out_activation_max]` and is the clamped 32-bit value itself: the narrowing to `int8_t` does
not change it; and there is a call with `out_activation_min > out_activation_max`, and one
with a bound outside `[-128, 127]`, for which both strategies return `STATE_SUCCESS` and
store an element outside `[out_activation_min, out_activation_max]`. -/
theorem clamp_holds_iff_bounds_are_int8 (a : ConvArgs) (output : Buf)
    (h4 : a.input_ch % 4 = 0) (hN : a.output_x * a.output_y < 2147483648)
    (hlo : -128 ≤ a.out_activation_min) (hle : a.out_activation_min ≤ a.out_activation_max)
    (hhi : a.out_activation_max ≤ 127) :
    ((reference a output).1 = STATE_SUCCESS ∧ (reordered a output).1 = STATE_SUCCESS) ∧
    (∀ out_y out_x c, out_y < a.output_y → out_x < a.output_x → c < a.output_ch →
      (reference a output).2 ((out_y * a.output_x + out_x) * a.output_ch + c)
        = clamped_result a (out_y * a.input_x + out_x) c ∧
      a.out_activation_min
        ≤ (reference a output).2 ((out_y * a.output_x + out_x) * a.output_ch + c) ∧
      (reference a output).2 ((out_y * a.output_x + out_x) * a.output_ch + c)
        ≤ a.out_activation_max) ∧
    (∀ p c, p < a.output_x * a.output_y → c < a.output_ch →
      (reordered a output).2 (p * a.output_ch + c) = clamped_result a p c ∧
      a.out_activation_min ≤ (reordered a output).2 (p * a.output_ch + c) ∧
      (reordered a output).2 (p * a.output_ch + c) ≤ a.out_activation_max) ∧
    (∃ (b : ConvArgs) (out : Buf),
      b.out_activation_max < b.out_activation_min ∧
      (reference b out).1 = STATE_SUCCESS ∧ (reordered b out).1 = STATE_SUCCESS ∧
      0 < b.output_x * b.output_y * b.output_ch ∧
      (reference b out).2 0 < b.out_activation_min ∧
      (reordered b out).2 0 < b.out_activation_min) ∧
    (∃ (b : ConvArgs) (out : Buf),
      b.out_activation_min ≤ b.out_activation_max ∧ 127 < b.out_activation_max ∧
      (reference b out).1 = STATE_SUCCESS ∧ (reordered b out).1 = STATE_SUCCESS ∧
      0 < b.output_x * b.output_y * b.output_ch ∧
      (reference b out).2 0 < b.out_activation_min ∧
      (reordered b out).2 0 < b.out_activation_min) := by
  have hg := guard_passes h4
  refine ⟨⟨reference_status a output hg, reordered_status a output hg⟩, ?_, ?_,
    ⟨invertedClampArgs, filled77, by decide⟩, ⟨wideClampArgs, filled77, by decide⟩⟩
  · intro out_y out_x c hy hx hc
    have hv : (reference a output).2 ((out_y * a.output_x + out_x) * a.output_ch + c)
        = clamped_result a (out_y * a.input_x + out_x) c := by
      rw [(reference_fills a output hg).1 _ c hc (reference_pixel_lt hy hx)]
      unfold reference_value
      rw [(div_mod_pixel hx).1, (div_mod_pixel hx).2, conv_value_eq_quantized,
        quantized_eq_clamped a _ c hlo hle hhi]
    rw [hv]
    exact ⟨rfl, clamped_result_range a _ c hle⟩
  · intro p c hp hc
    have hv : (reordered a output).2 (p * a.output_ch + c) = clamped_result a p c := by
      rw [(reordered_fills a output hg hN).1 p c hc hp, conv_value_eq_quantized,
        quantized_eq_clamped a _ c hlo hle hhi]
    rw [hv]
    exact ⟨rfl, clamped_result_range a _ c hle⟩

theorem clamp_holds_iff_bounds_are_int8_witness :
    (sampleArgs.input_ch % 4 = 0 ∧ sampleArgs.output_x * sampleArgs.output_y < 2147483648 ∧
      -128 ≤ sampleArgs.out_activation_min ∧
      sampleArgs.out_activation_min ≤ sampleArgs.out_activation_max ∧
      sampleArgs.out_activation_max ≤ 127) ∧
    ((reference sampleArgs filled77).2 ((0 * sampleArgs.output_x + 1) * sampleArgs.output_ch + 2)
        = clamped_result sampleArgs (0 * sampleArgs.input_x + 1) 2 ∧
      clamped_result sampleArgs (0 * sampleArgs.input_x + 1) 2 = 5) :=
  ⟨⟨by decide, by decide, by decide, by decide, by decide⟩,
   ⟨((clamp_holds_iff_bounds_are_int8 sampleArgs filled77 (by decide) (by decide) (by decide)
      (by decide) (by decide)).2.1 0 1 2 (by decide) (by decide) (by decide)).1,
    by decide⟩⟩


/-! ## Pixel indexing of the strategies -/

/-- C16: the reference strategy takes the activations of output pixel `(out_y, out_x)` from
pixel index `out_y * input_x + out_x`, the reordered and unrolled strategies take them from
the linear index `out_y * output_x + out_x` and do not depend on `input_x` and `input_y` at
all; and there is a call with `input_ch` divisible by 4, `output_y >= 2` and
`input_x` different from `output_x` for which the reference and reordered strategies both
return `STATE_SUCCESS` and write different output tensors (pixel count within
`int32_t`). -/
theorem reference_indexes_by_input_width (a : ConvArgs) (output : Buf)
    (h4 : a.input_ch % 4 = 0) (hN : a.output_x * a.output_y < 2147483648) :
    (∀ out_y out_x c, out_y < a.output_y → out_x < a.output_x → c < a.output_ch →
      (reference a output).2 ((out_y * a.output_x + out_x) * a.output_ch + c)
        = quantized_result a (out_y * a.input_x + out_x) c ∧
      (reordered a output).2 ((out_y * a.output_x + out_x) * a.output_ch + c)
        = quantized_result a (out_y * a.output_x + out_x) c ∧
      (c < a.output_ch / 2 * 2 →
        (unrolled a output).2 ((out_y * a.output_x + out_x) * a.output_ch + c)
          = quantized_result a (out_y * a.output_x + out_x) c)) ∧
    (∀ ix iy : Nat,
      reordered { a with input_x := ix, input_y := iy } output = reordered a output ∧
      unrolled { a with input_x := ix, input_y := iy } output = unrolled a output) ∧
    (∃ (b : ConvArgs) (out : Buf),
      b.input_ch % 4 = 0 ∧ 2 ≤ b.output_y ∧ b.input_x ≠ b.output_x ∧
      (reference b out).1 = STATE_SUCCESS ∧ (reordered b out).1 = STATE_SUCCESS ∧
      (reference b out).2 ≠ (reordered b out).2) := by
  have hg := guard_passes h4
  refine ⟨?_, fun ix iy => ⟨rfl, rfl⟩, ⟨widerInputArgs, filled77, by decide, by decide,
    by decide, by decide, by decide, ?_⟩⟩
  · intro out_y out_x c hy hx hc
    have hp : out_y * a.output_x + out_x < a.output_x * a.output_y := by
      rw [Nat.mul_comm a.output_x]
      exact reference_pixel_lt hy hx
    refine ⟨?_, ?_, fun hc2 => ?_⟩
    · rw [(reference_fills a output hg).1 _ c hc (reference_pixel_lt hy hx)]
      unfold reference_value
      rw [(div_mod_pixel hx).1, (div_mod_pixel hx).2, conv_value_eq_quantized]
    · rw [(reordered_fills a output hg hN).1 _ c hc hp, conv_value_eq_quantized]
    · rw [(unrolled_fills a output hg hN).1 _ c hc ⟨hp, hc2⟩, conv_value_eq_quantized]
  · intro h
    have h8 : (reference widerInputArgs filled77).2 8 = (reordered widerInputArgs filled77).2 8 :=
      congrFun h 8
    revert h8
    decide

theorem reference_indexes_by_input_width_witness :
    (widerInputArgs.input_ch % 4 = 0 ∧
      widerInputArgs.output_x * widerInputArgs.output_y < 2147483648) ∧
    ((reference widerInputArgs filled77).2
        ((1 * widerInputArgs.output_x + 0) * widerInputArgs.output_ch + 0)
        = quantized_result widerInputArgs (1 * widerInputArgs.input_x + 0) 0 ∧
      (reordered widerInputArgs filled77).2
        ((1 * widerInputArgs.output_x + 0) * widerInputArgs.output_ch + 0)
        = quantized_result widerInputArgs (1 * widerInputArgs.output_x + 0) 0 ∧
      quantized_result widerInputArgs 3 0 = 6 ∧ quantized_result widerInputArgs 2 0 = -15) :=
  ⟨⟨by decide, by decide⟩,
   ⟨((reference_indexes_by_input_width widerInputArgs filled77 (by decide) (by decide)).1
      1 0 0 (by decide) (by decide) (by decide)).1,
    ((reference_indexes_by_input_width widerInputArgs filled77 (by decide) (by decide)).1
      1 0 0 (by decide) (by decide) (by decide)).2.1,
    by decide, by decide⟩⟩

theorem accumulator_never_overflows_witness :
    (sampleArgs.input_ch % 4 = 0 ∧ sampleArgs.input_ch < 65536 ∧ 3 ≤ sampleArgs.input_ch ∧
      (∀ i, -128 ≤ sampleArgs.input i ∧ sampleArgs.input i ≤ 127) ∧
      (∀ i, -128 ≤ sampleArgs.kernel i ∧ sampleArgs.kernel i ≤ 127) ∧
      (-128 ≤ sampleArgs.input_offset ∧ sampleArgs.input_offset ≤ 128)) ∧
    (|sum_upto 3 (fun i =>
        sampleArgs.kernel (4 + i) * (sampleArgs.input (8 + i) + sampleArgs.input_offset))|
        ≤ 65532 * 128 * 256 ∧
      dotN sampleArgs 8 4 3
        = sum_upto 3 (fun i =>
            sampleArgs.kernel (4 + i) * (sampleArgs.input (8 + i) + sampleArgs.input_offset))) :=
  have hin : ∀ i, -128 ≤ sampleArgs.input i ∧ sampleArgs.input i ≤ 127 := fun i => by
    show -128 ≤ ((i % 11 : Nat) : Int) - 5 ∧ ((i % 11 : Nat) : Int) - 5 ≤ 127
    omega
  have hk : ∀ i, -128 ≤ sampleArgs.kernel i ∧ sampleArgs.kernel i ≤ 127 := fun i => by
    show -128 ≤ ((i % 7 : Nat) : Int) - 3 ∧ ((i % 7 : Nat) : Int) - 3 ≤ 127
    omega
  ⟨⟨by decide, by decide, by decide, hin, hk, by decide⟩,
   ⟨(accumulator_never_overflows sampleArgs 8 4 3 (by decide) (by decide) (by decide) hin hk
      (by decide)).2.2.1,
    (accumulator_never_overflows sampleArgs 8 4 3 (by decide) (by decide) (by decide) hin hk
      (by decide)).2.2.2.1⟩⟩


/-! ## Packed strategy with the inner kernel of the specification -/

theorem pack_step (input : Buf) (off16 : Int) (src m : Nat) (p : PackState)
    (h : PackedGroups input off16 src m p) :
    PackedGroups input off16 src (m + 1) (q7_q15_offset_reordered_ele input off16 p) := by
  obtain ⟨e1, e2, e3⟩ := h
  obtain ⟨ps, pd, pb⟩ := p
  dsimp only at e1 e2 e3
  subst e1 e2
  unfold q7_q15_offset_reordered_ele
  refine ⟨by dsimp only; omega, by dsimp only; omega, fun g hg => ?_⟩
  dsimp only
  by_cases hgm : g = m
  · subst hgm
    refine ⟨?_, ?_, ?_, ?_⟩
    · rw [store_other _ _ _ _ (by omega), store_other _ _ _ _ (by omega),
        store_other _ _ _ _ (by omega), store_same]
    · rw [store_other _ _ _ _ (by omega), store_other _ _ _ _ (by omega), store_same,
        Nat.add_assoc]
    · rw [store_other _ _ _ _ (by omega), store_same, Nat.add_assoc]
    · rw [store_same, Nat.add_assoc]
  · have hlt : g < m := by omega
    obtain ⟨f0, f1, f2, f3⟩ := e3 g hlt
    refine ⟨?_, ?_, ?_, ?_⟩
    · rw [store_other _ _ _ _ (by omega), store_other _ _ _ _ (by omega),
        store_other _ _ _ _ (by omega), store_other _ _ _ _ (by omega), f0]
    · rw [store_other _ _ _ _ (by omega), store_other _ _ _ _ (by omega),
        store_other _ _ _ _ (by omega), store_other _ _ _ _ (by omega), f1]
    · rw [store_other _ _ _ _ (by omega), store_other _ _ _ _ (by omega),
        store_other _ _ _ _ (by omega), store_other _ _ _ _ (by omega), f2]
    · rw [store_other _ _ _ _ (by omega), store_other _ _ _ _ (by omega),
        store_other _ _ _ _ (by omega), store_other _ _ _ _ (by omega), f3]

/-- The packing loop of the paired path fills `2 * n` groups: the two columns, one after the
other. -/
theorem pack_two_columns (input : Buf) (off16 : Int) (src n : Nat) (rb : Buf) :
    PackedGroups input off16 src (2 * n)
      (forLoop n (fun _ p =>
        q7_q15_offset_reordered_ele input off16 (q7_q15_offset_reordered_ele input off16 p))
        ⟨src, 0, rb⟩) := by
  refine forLoop_inv (fun i (p : PackState) => PackedGroups input off16 src (2 * i) p) n _ _
    ⟨rfl, rfl, fun g hg => by omega⟩ ?_
  intro i p _ hp
  exact pack_step input off16 src (2 * i + 1) _ (pack_step input off16 src (2 * i) p hp)

/-- The accumulator of one lane of the inner kernel over a packed column that starts at
offset `ip`: the start value plus the sum of weight times packed activation, in 32-bit
arithmetic. -/
theorem paired_dot_sum (kernel buf : Buf) (rounds : Nat) (sum0 : Int) (ker ip : Nat)
    (w : Nat → Int)
    (hbuf : ∀ g, g < rounds →
      buf (ip + 4 * g) = w (4 * g) ∧ buf (ip + (4 * g + 1)) = w (4 * g + 2) ∧
      buf (ip + (4 * g + 2)) = w (4 * g + 1) ∧ buf (ip + (4 * g + 3)) = w (4 * g + 3))
    (h0 : -2147483648 ≤ sum0 ∧ sum0 ≤ 2147483647) :
    (paired_dot kernel buf rounds sum0 ker ip).sum
      = wrap32 (sum0 + sum_upto (4 * rounds) (fun i => kernel (ker + i) * w i)) := by
  unfold paired_dot
  have key := forLoop_inv
    (fun i (c : ColState) => c.ker_a = ker + 4 * i ∧ c.ip_as_col = ip + 4 * i ∧
      (-2147483648 ≤ c.sum ∧ c.sum ≤ 2147483647) ∧
      c.sum ≡ sum0 + sum_upto (4 * i) (fun i => kernel (ker + i) * w i) [ZMOD 4294967296])
    rounds
    (fun _ c =>
      let ker := read_and_pad_reordered kernel c.ker_a
      let in_b1 := arm_nn_read_q15x2 buf c.ip_as_col
      let sum := SMLAD ker.1 in_b1 c.sum
      let in_b2 := arm_nn_read_q15x2 buf (c.ip_as_col + 2)
      let sum := SMLAD ker.2 in_b2 sum
      { sum := sum, ker_a := c.ker_a + 4, ip_as_col := c.ip_as_col + 4 })
    ⟨sum0, ker, ip⟩
    ⟨rfl, rfl, h0, by simp [sum_upto, forLoop]⟩
    (by
      intro i c hi ⟨e1, e2, _, e4⟩
      obtain ⟨cs, ck, ci⟩ := c
      dsimp only at e1 e2 e4
      subst e1 e2
      obtain ⟨f0, f1, f2, f3⟩ := hbuf i hi
      refine ⟨by dsimp only; omega, by dsimp only; omega, wrap32_range _, ?_⟩
      rw [sum_upto_four]
      dsimp only [SMLAD, read_and_pad_reordered, arm_nn_read_q15x2]
      simp only [Nat.add_assoc]
      rw [f0, f1, f3, f2]
      generalize kernel (ker + 4 * i) * w (4 * i) = t0
      generalize kernel (ker + (4 * i + 1)) * w (4 * i + 1) = t1
      generalize kernel (ker + (4 * i + 2)) * w (4 * i + 2) = t2
      generalize kernel (ker + (4 * i + 3)) * w (4 * i + 3) = t3
      generalize sum_upto (4 * i) (fun i => kernel (ker + i) * w i) = T at e4 ⊢
      unfold Int.ModEq at e4 ⊢
      unfold wrap32
      omega)
  obtain ⟨_, _, hr, hm⟩ := key
  dsimp only at hr hm
  rw [← wrap32_congr hm]
  exact (wrap32_of_range _ hr.1 hr.2).symm


theorem dotN_eq_wrap_sum (a : ConvArgs) (src ker n : Nat) :
    dotN a src ker n
      = wrap32 (sum_upto n (fun i => (a.input (src + i) + a.input_offset) * a.kernel (ker + i))) := by
  rw [← wrap32_congr (dotN_modEq a src ker n)]
  exact (wrap32_of_range _ (dotN_range _ _ _ _).1 (dotN_range _ _ _ _).2).symm

theorem inoff16_eq (a : ConvArgs) (hoff : -32640 ≤ a.input_offset ∧ a.input_offset ≤ 32640) :
    inoff16 a = a.input_offset := by
  unfold inoff16
  exact wrap16_of_range _ (by omega) (by omega)

/-- One lane of the inner kernel over a packed column of the activations at `src` computes
the accumulator of the scalar strategies. -/
theorem lane_sum_eq_dotN (a : ConvArgs) (buf : Buf) (src c ip : Nat)
    (h4 : a.input_ch % 4 = 0)
    (hbuf : ∀ g, g < a.input_ch / 4 →
      buf (ip + 4 * g) = wrap16 (a.input (src + 4 * g) + inoff16 a) ∧
      buf (ip + (4 * g + 1)) = wrap16 (a.input (src + (4 * g + 2)) + inoff16 a) ∧
      buf (ip + (4 * g + 2)) = wrap16 (a.input (src + (4 * g + 1)) + inoff16 a) ∧
      buf (ip + (4 * g + 3)) = wrap16 (a.input (src + (4 * g + 3)) + inoff16 a))
    (hin : ∀ i, -128 ≤ a.input i ∧ a.input i ≤ 127)
    (hoff : -32640 ≤ a.input_offset ∧ a.input_offset ≤ 32640) :
    (paired_dot a.kernel buf (a.input_ch / 4) 0 (c * a.input_ch) ip).sum
      = dotN a src (c * a.input_ch) a.input_ch := by
  rw [paired_dot_sum a.kernel buf (a.input_ch / 4) 0 (c * a.input_ch) ip
    (fun i => wrap16 (a.input (src + i) + inoff16 a)) hbuf (by omega)]
  have hfull : 4 * (a.input_ch / 4) = a.input_ch := by omega
  have hfun : (fun i => a.kernel (c * a.input_ch + i) * wrap16 (a.input (src + i) + inoff16 a))
      = (fun i => (a.input (src + i) + a.input_offset) * a.kernel (c * a.input_ch + i)) := by
    funext i
    have hi := hin (src + i)
    rw [inoff16_eq a hoff, wrap16_of_range _ (by omega) (by omega), mul_comm]
  rw [hfull, hfun, zero_add, dotN_eq_wrap_sum]

theorem requantize_with_eq (a : ConvArgs) (sum : Int) (c : Nat)
    (hoo : -128 ≤ a.out_offset ∧ a.out_offset ≤ 127) :
    requantize_with a.scales (wrap8 a.out_offset) a.out_activation_min a.out_activation_max
      sum c = requantize a sum c := by
  unfold requantize_with requantize
  rw [wrap8_of_range _ hoo.1 hoo.2]

/-- One call of the inner kernel on the two packed columns of the pixels `2 * k` and
`2 * k + 1` stores the convolution results of both pixels, all channels. -/
theorem kernel_round_fills (a : ConvArgs) (base mem : Buf) (k : Nat) (p : PackState)
    (W0 : Nat → Nat → Prop)
    (h4 : a.input_ch % 4 = 0)
    (hin : ∀ i, -128 ≤ a.input i ∧ a.input i ≤ 127)
    (hoff : -32640 ≤ a.input_offset ∧ a.input_offset ≤ 32640)
    (hoo : -128 ≤ a.out_offset ∧ a.out_offset ≤ 127)
    (hp : PackedGroups a.input (inoff16 a) (2 * k * a.input_ch) (2 * (a.input_ch / 4)) p)
    (hF : Fills a.output_ch (conv_value a) W0 base mem) :
    ∃ mem', mat_mult_kernel_s8_s16_reordered_fpreq a.kernel p.buf a.output_ch a.scales
        (wrap8 a.out_offset) a.out_activation_min a.out_activation_max
        (a.input_ch * DIM_KER_Y * DIM_KER_X) a.bias mem (2 * k * a.output_ch)
        = some (mem', 2 * k * a.output_ch + 2 * a.output_ch) ∧
      Fills a.output_ch (conv_value a) (fun q c => W0 q c ∨ (q = 2 * k ∨ q = 2 * k + 1))
        base mem' := by
  have hcol : a.input_ch * DIM_KER_Y * DIM_KER_X = a.input_ch := by
    simp [DIM_KER_X, DIM_KER_Y]
  have hshift : a.input_ch >>> 2 = a.input_ch / 4 := by
    simp [Nat.shiftRight_eq_div_pow]
  obtain ⟨_, _, hgroups⟩ := hp
  have hlane0 : ∀ c, (paired_dot a.kernel p.buf (a.input_ch / 4) 0 (c * a.input_ch) 0).sum
      = dotN a (2 * k * a.input_ch) (c * a.input_ch) a.input_ch := by
    intro c
    refine lane_sum_eq_dotN a p.buf _ c 0 h4 (fun g hg => ?_) hin hoff
    have := hgroups g (by omega)
    simp only [Nat.zero_add]
    exact this
  have hlane1 : ∀ c,
      (paired_dot a.kernel p.buf (a.input_ch / 4) 0 (c * a.input_ch) a.input_ch).sum
        = dotN a (2 * k * a.input_ch + a.input_ch) (c * a.input_ch) a.input_ch := by
    intro c
    refine lane_sum_eq_dotN a p.buf _ c a.input_ch h4 (fun g hg => ?_) hin hoff
    obtain ⟨f0, f1, f2, f3⟩ := hgroups (a.input_ch / 4 + g) (by omega)
    have e0 : a.input_ch + 4 * g = 4 * (a.input_ch / 4 + g) := by omega
    have e1 : a.input_ch + (4 * g + 1) = 4 * (a.input_ch / 4 + g) + 1 := by omega
    have e2 : a.input_ch + (4 * g + 2) = 4 * (a.input_ch / 4 + g) + 2 := by omega
    have e3 : a.input_ch + (4 * g + 3) = 4 * (a.input_ch / 4 + g) + 3 := by omega
    have s0 : 2 * k * a.input_ch + a.input_ch + 4 * g
        = 2 * k * a.input_ch + 4 * (a.input_ch / 4 + g) := by omega
    have s1 : 2 * k * a.input_ch + a.input_ch + (4 * g + 1)
        = 2 * k * a.input_ch + (4 * (a.input_ch / 4 + g) + 1) := by omega
    have s2 : 2 * k * a.input_ch + a.input_ch + (4 * g + 2)
        = 2 * k * a.input_ch + (4 * (a.input_ch / 4 + g) + 2) := by omega
    have s3 : 2 * k * a.input_ch + a.input_ch + (4 * g + 3)
        = 2 * k * a.input_ch + (4 * (a.input_ch / 4 + g) + 3) := by omega
    rw [e0, e1, e2, e3, s0, s1, s2, s3]
    exact ⟨f0, f1, f2, f3⟩
  refine ⟨_, rfl, ?_⟩
  rw [hcol, hshift]
  have key := forLoop_inv
    (fun j (m : Buf) => Fills a.output_ch (conv_value a)
      (fun q c => W0 q c ∨ ((q = 2 * k ∨ q = 2 * k + 1) ∧ c < j)) base m)
    a.output_ch
    (fun ch mem =>
      let sum_0 := (paired_dot a.kernel p.buf (a.input_ch / 4) 0 (ch * a.input_ch) 0).sum
      let sum_1 :=
        (paired_dot a.kernel p.buf (a.input_ch / 4) 0 (ch * a.input_ch) a.input_ch).sum
      let sum_0 := add_bias a.bias sum_0 ch
      let sum_1 := add_bias a.bias sum_1 ch
      let mem := store mem (2 * k * a.output_ch + ch)
        (requantize_with a.scales (wrap8 a.out_offset) a.out_activation_min
          a.out_activation_max sum_0 ch)
      store mem (2 * k * a.output_ch + a.output_ch + ch)
        (requantize_with a.scales (wrap8 a.out_offset) a.out_activation_min
          a.out_activation_max sum_1 ch))
    mem
    (hF.congr (fun q c _ => by simp))
    (by
      intro j m hj hm
      dsimp only
      rw [hlane0 j, hlane1 j, requantize_with_eq a _ j hoo, requantize_with_eq a _ j hoo,
        conv_value_succ_pixel]
      have e : 2 * k * a.output_ch + a.output_ch + j = (2 * k + 1) * a.output_ch + j := by ring
      rw [e]
      have s0 := hm.store_pixel (V := fun q c => W0 q c ∨
        ((q = 2 * k ∨ q = 2 * k + 1) ∧ c < j) ∨ (q = 2 * k ∧ c = j))
        (p := 2 * k) (c := j) hj (fun p' c' _ => by tauto)
      exact s0.store_pixel (V := fun q c => W0 q c ∨
        ((q = 2 * k ∨ q = 2 * k + 1) ∧ c < j + 1))
        (p := 2 * k + 1) (c := j) hj (fun p' c' _ => or_iff_or_or (by omega)))
  exact key.congr (fun q c hc => by
    constructor
    · rintro (h | h)
      · exact Or.inl h
      · exact Or.inr ⟨h, hc⟩
    · rintro (h | ⟨h, _⟩)
      · exact Or.inl h
      · exact Or.inr h)


/-- The paired loop of the packed strategy with the inner kernel of the specification: after
`n` rounds the pixels `p < 2 * n` hold their convolution results. -/
theorem packed_pairs_fills (a : ConvArgs) (output rb : Buf) (n : Nat)
    (h4 : a.input_ch % 4 = 0)
    (hin : ∀ i, -128 ≤ a.input i ∧ a.input i ≤ 127)
    (hoff : -32640 ≤ a.input_offset ∧ a.input_offset ≤ 32640)
    (hoo : -128 ≤ a.out_offset ∧ a.out_offset ≤ 127) :
    ∃ s, packed_pairs mat_mult_kernel_s8_s16_reordered_fpreq a n ⟨0, output, rb⟩ = some s ∧
      s.out = 2 * n * a.output_ch ∧
      Fills a.output_ch (conv_value a) (fun p _ => p < 2 * n) output s.output := by
  unfold packed_pairs
  refine forLoop_inv
    (fun i (r : Option PackedState) => ∃ s, r = some s ∧ s.out = 2 * i * a.output_ch ∧
      Fills a.output_ch (conv_value a) (fun p _ => p < 2 * i) output s.output)
    n _ _ ⟨⟨0, output, rb⟩, rfl, by simp, (Fills.init _ _ _).congr (fun p c _ => by simp)⟩ ?_
  intro i r _ ⟨s, hr, hout, hF⟩
  subst hr
  have hshift : a.input_ch >>> 2 = a.input_ch / 4 := by
    simp [Nat.shiftRight_eq_div_pow]
  have hsrc : i * a.input_ch * 2 = 2 * i * a.input_ch := by ring
  have hp := pack_two_columns a.input (inoff16 a) (2 * i * a.input_ch) (a.input_ch / 4)
    s.runtime_buf
  obtain ⟨mem', hk, hF'⟩ := kernel_round_fills a output s.output i _ _ h4 hin hoff hoo hp hF
  dsimp only
  rw [hshift, hsrc, hout, hk]
  refine ⟨_, rfl, by dsimp only; ring, ?_⟩
  dsimp only
  exact hF'.congr (fun p c _ => by omega)

/-- The leftover path of the packed strategy stores the convolution results of the last
pixel and leaves every other element as it was. -/
theorem packed_leftover_conv (a : ConvArgs) (s : PackedState) (b : Buf)
    (h4 : a.input_ch % 4 = 0)
    (hN : a.output_x * a.output_y < 2147483648) (hodd : a.output_x * a.output_y % 2 = 1)
    (hb : a.bias = some b) (hbr : ∀ c, -2147483648 ≤ b c ∧ b c ≤ 2147483647)
    (hin : ∀ i, -128 ≤ a.input i ∧ a.input i ≤ 127)
    (hoff : -32640 ≤ a.input_offset ∧ a.input_offset ≤ 32640) :
    ∃ r, packed_leftover a s = some r ∧
      (∀ c, c < a.output_ch →
        r.output (s.out + c) = conv_value a (a.output_x * a.output_y - 1) c) ∧
      (∀ i, i < s.out ∨ s.out + a.output_ch ≤ i → r.output i = s.output i) := by
  obtain ⟨r, hr, _, e3, e4⟩ := packed_leftover_some a s b hb h4
  refine ⟨r, hr, fun c hc => ?_, e4⟩
  rw [e3 c hc]
  have hsrc := last_column_src a hN (by omega)
  have hshift : a.input_ch >>> 2 = a.input_ch / 4 := by
    simp [Nat.shiftRight_eq_div_pow]
  have hcol := pack_column_spec a.input (inoff16 a)
    ((a.output_x * a.output_y - 1) * a.input_ch) (a.input_ch / 4) s.runtime_buf
  have hsum := leftover_dot_sum a (pack_last_column a s.runtime_buf).buf (b c)
    (c * a.input_ch)
    (fun i => wrap16 (a.input ((a.output_x * a.output_y - 1) * a.input_ch + i) + inoff16 a))
    (by
      intro g hg'
      unfold pack_last_column
      rw [hsrc, hshift]
      exact hcol g hg')
    (hbr c)
  have hfull : 4 * (a.input_ch / 4) = a.input_ch := by omega
  have hfun : (fun i => a.kernel (c * a.input_ch + i) *
        wrap16 (a.input ((a.output_x * a.output_y - 1) * a.input_ch + i) + inoff16 a))
      = (fun i => (a.input ((a.output_x * a.output_y - 1) * a.input_ch + i) + a.input_offset)
          * a.kernel (c * a.input_ch + i)) := by
    funext i
    have hi := hin ((a.output_x * a.output_y - 1) * a.input_ch + i)
    rw [inoff16_eq a hoff, wrap16_of_range _ (by omega) (by omega), mul_comm]
  rw [hsum, hfull, hfun]
  unfold conv_value
  rw [add_bias_dotN_eq]
  unfold acc_spec
  rw [hb]
  dsimp only
  rw [add_comm]

theorem packed_eq_reference_aux (a : ConvArgs) (output rb b : Buf)
    (h4 : a.input_ch % 4 = 0) (hx : a.input_x = a.output_x)
    (hN : a.output_x * a.output_y < 2147483648)
    (hb : a.bias = some b) (hbr : ∀ c, -2147483648 ≤ b c ∧ b c ≤ 2147483647)
    (hin : ∀ i, -128 ≤ a.input i ∧ a.input i ≤ 127)
    (hoff : -32640 ≤ a.input_offset ∧ a.input_offset ≤ 32640)
    (hoo : -128 ≤ a.out_offset ∧ a.out_offset ≤ 127) :
    (packed mat_mult_kernel_s8_s16_reordered_fpreq a output rb).map (fun r => (r.1, r.2.1))
      = some (reference a output) := by
  have hg := guard_passes h4
  have href := reference_fills_linear a output hg hx
  obtain ⟨s, hs, hout, hF⟩ :=
    packed_pairs_fills a output rb (a.output_x * a.output_y / 2) h4 hin hoff hoo
  unfold packed
  rw [hg, num_elements_eq a hN, tdiv_two_toNat]
  simp only [Bool.false_eq_true, if_false, hs]
  by_cases hodd : a.output_x * a.output_y % 2 = 1
  · obtain ⟨r, hr, e3, e4⟩ := packed_leftover_conv a s b h4 hN hodd hb hbr hin hoff
    rw [if_pos (by omega)]
    simp only [hr, Option.map_some']
    have hfill : Fills a.output_ch (conv_value a) (fun p _ => p < a.output_x * a.output_y)
        output r.output := by
      constructor
      · intro p c hc hp
        by_cases hlast : p = a.output_x * a.output_y - 1
        · subst hlast
          have hidx : (a.output_x * a.output_y - 1) * a.output_ch + c = s.out + c := by
            rw [hout]
            have : a.output_x * a.output_y - 1 = 2 * (a.output_x * a.output_y / 2) := by omega
            rw [this]
          rw [hidx, e3 c hc]
        · have hp2 : p < 2 * (a.output_x * a.output_y / 2) := by omega
          have hlt := pixel_index_lt hc hp2
          rw [e4 _ (Or.inl (by rw [hout]; exact hlt))]
          exact hF.1 p c hc hp2
      · intro i hi
        have hi2 : i < s.out ∨ s.out + a.output_ch ≤ i := by
          by_contra hcon
          have h1 : s.out ≤ i := by omega
          have h2 : i - s.out < a.output_ch := by omega
          refine hi (a.output_x * a.output_y - 1) (i - s.out) h2 (by omega) ?_
          have : a.output_x * a.output_y - 1 = 2 * (a.output_x * a.output_y / 2) := by omega
          rw [this, ← hout]
          omega
        rw [e4 i hi2]
        exact hF.2 i (fun p c hc hp => hi p c hc (by omega))
    rw [Fills.unique hfill href]
    exact congrArg some (Prod.ext (reference_status a output hg).symm rfl)
  · rw [if_neg (by omega)]
    simp only [Option.map_some']
    rw [Fills.unique (hF.congr (fun p c _ => by omega)) href]
    exact congrArg some (Prod.ext (reference_status a output hg).symm rfl)


/-- C11 (as stated, refuted): with the inner kernel of the specification, the packed
strategy returns `STATE_SUCCESS` but differs from the reference strategy on a 1x1 image with
`input_offset = 65539`, which it narrows to the 16-bit value `3` (it stores `9`, the
reference `-128`), and on a 2x1 image with `out_offset = 300`, which it passes to the inner
kernel as the `q7_t` value `44` (it stores `48`, the reference `127`). -/
theorem packed_differs_for_wide_offsets :
    (wideOffsetArgs.input_ch % 4 = 0 ∧ inoff16 wideOffsetArgs = 3 ∧
      (packed mat_mult_kernel_s8_s16_reordered_fpreq wideOffsetArgs filled77 zeroBuf).map
        (fun r => (r.1, r.2.1 0)) = some (STATE_SUCCESS, 9) ∧
      (reference wideOffsetArgs filled77).1 = STATE_SUCCESS ∧
      (reference wideOffsetArgs filled77).2 0 = -128) ∧
    (wideOutOffsetArgs.input_ch % 4 = 0 ∧ wrap8 wideOutOffsetArgs.out_offset = 44 ∧
      (packed mat_mult_kernel_s8_s16_reordered_fpreq wideOutOffsetArgs filled77 zeroBuf).map
        (fun r => (r.1, r.2.1 0)) = some (STATE_SUCCESS, 48) ∧
      (reference wideOutOffsetArgs filled77).1 = STATE_SUCCESS ∧
      (reference wideOutOffsetArgs filled77).2 0 = 127) := by
  decide

/-- C11 (amended): for every call with `input_ch` divisible by 4, `input_x = output_x`, a
pixel count that fits `int32_t`, a bias vector (of `int32_t` values) supplied, `int8_t`
activations, `input_offset` in `[-32640, 32640]` and `out_offset` in `[-128, 127]`, the packed
strategy (packing of pairs of positions into the scratch buffer, the inner kernel of the
specification, and the leftover path) returns the status and the output buffer of the
reference strategy. -/
theorem packed_eq_reference (a : ConvArgs) (output runtime_buf b : Buf)
    (h4 : a.input_ch % 4 = 0) (hx : a.input_x = a.output_x)
    (hN : a.output_x * a.output_y < 2147483648)
    (hb : a.bias = some b) (hbr : ∀ c, -2147483648 ≤ b c ∧ b c ≤ 2147483647)
    (hin : ∀ i, -128 ≤ a.input i ∧ a.input i ≤ 127)
    (hoff : -32640 ≤ a.input_offset ∧ a.input_offset ≤ 32640)
    (hoo : -128 ≤ a.out_offset ∧ a.out_offset ≤ 127) :
    (packed mat_mult_kernel_s8_s16_reordered_fpreq a output runtime_buf).map
        (fun r => (r.1, r.2.1))
      = some (reference a output) :=
  packed_eq_reference_aux a output runtime_buf b h4 hx hN hb hbr hin hoff hoo

theorem packed_eq_reference_witness :
    (sampleArgs.input_ch % 4 = 0 ∧ sampleArgs.input_x = sampleArgs.output_x ∧
      sampleArgs.output_x * sampleArgs.output_y < 2147483648 ∧
      sampleArgs.bias = some (fun c => ((c % 4 : Nat) : Int)) ∧
      (∀ c : Nat, (-2147483648 : Int) ≤ ((c % 4 : Nat) : Int) ∧
        ((c % 4 : Nat) : Int) ≤ 2147483647) ∧
      (∀ i, -128 ≤ sampleArgs.input i ∧ sampleArgs.input i ≤ 127) ∧
      (-32640 ≤ sampleArgs.input_offset ∧ sampleArgs.input_offset ≤ 32640) ∧
      (-128 ≤ sampleArgs.out_offset ∧ sampleArgs.out_offset ≤ 127)) ∧
    (packed mat_mult_kernel_s8_s16_reordered_fpreq sampleArgs filled77 zeroBuf).map
        (fun r => (r.1, r.2.1))
      = some (reference sampleArgs filled77) :=
  have hbr : ∀ c : Nat, (-2147483648 : Int) ≤ ((c % 4 : Nat) : Int) ∧
      ((c % 4 : Nat) : Int) ≤ 2147483647 := fun c => by omega
  have hin : ∀ i, -128 ≤ sampleArgs.input i ∧ sampleArgs.input i ≤ 127 := fun i => by
    show -128 ≤ ((i % 11 : Nat) : Int) - 5 ∧ ((i % 11 : Nat) : Int) - 5 ≤ 127
    omega
  ⟨⟨by decide, by decide, by decide, rfl, hbr, hin, by decide, by decide⟩,
   packed_eq_reference sampleArgs filled77 zeroBuf (fun c => ((c % 4 : Nat) : Int))
     (by decide) (by decide) (by decide) rfl hbr hin (by decide) (by decide)⟩

/-! ## Status of a call -/

end TinyEngine
